import Mathlib

/-! SimpleOS: the path-addressed in-memory filesystem of `src/main.c`.

A shallow embedding of the engine functions of `main.c` (`initializeOS`, `listFiles`,
`moveFile`, `renameFile`, `deleteFile`, `createFile`, `writeToFile`, `readFile`,
`makeDirectory`, `changeDirectory`, `setPermissions`, `copyFile`, `isDirectoryEmpty`,
`removeDirectory`) and theorems about them.

Modelling conventions.

* A C string is the list of its characters before the terminating NUL (`Str`).
  `strcmp(a, b) == 0` is equality of lists, `strncmp(a, b, n) == 0` is equality of the
  first `n` characters, `strcpy` and `sprintf("%s/%s", ..)` are copy and concatenation.
* The fields `name` and `content` of a `File` are the strings the program reads back from
  the slot.  In the struct `content[1024]` directly follows `name[50]`, and no `strcpy` of
  the program is bounded.  A name of 50 or more characters therefore fills `name` without
  a terminator and runs on into `content`: the name read back is its first 50 characters
  followed by the content (`storedName`), and a copy of such a name into `name` leaves
  its characters from the 51st on as the content.  This is what the program does as
  compiled without buffer checks; the C standard leaves it undefined.  Every theorem
  below that needs a string stored intact therefore assumes that it fits its buffer.
* The local arrays `newName[50]` and `fullPath[50]` are taken to hold the whole string
  built in them, and the ends of `content[1024]` and `currentDirectory[50]` are not
  modelled: a theorem that takes a content or builds a current directory assumes it fits.
* `changeDirectory` away from the root calls `sprintf` with `currentDirectory` as both
  destination and argument, which C leaves undefined.  `changeDirectoryWith` takes the
  string such a call leaves as a parameter; `changeDirectory` is the instance in which it
  is the concatenation.
* `files[0 .. fileCount-1]` is the list `OSState.files`; `fileCount` is its length.  Slots at
  index `fileCount` and above are never read by the program before being written.
* The field `exists` of the C struct is called `exists_`, since `exists` is a reserved word.
* What a function prints is returned as a value of type `Output`, one constructor for each
  `printf` of the engine.
-/

namespace SimpleOS

/-- A C string: its characters up to the terminating NUL. -/
abbrev Str := List Char

/-- The constant `MAX_FILES`. -/
def MAX_FILES : Nat := 100

/-- The constant `MAX_FILENAME_LENGTH`, the size of `name`, `currentDirectory`, `newName`
and `fullPath`. -/
def MAX_FILENAME_LENGTH : Nat := 50

/-- The size of the array `content`. -/
def CONTENT_SIZE : Nat := 1024

/-- The name read back from a slot after `s` was copied into `name[50]` and the slot's
content ended up as `content`: `s` itself when it fits with its terminator, else its first
50 characters followed by the content, which starts right after `name` in the struct. -/
def storedName (s content : List Char) : List Char :=
  if s.length < MAX_FILENAME_LENGTH then s else s.take MAX_FILENAME_LENGTH ++ content

/-- The struct `File`. -/
structure File where
  name : Str
  content : Str
  exists_ : Bool
  isDirectory : Bool
  permissions : Int
  deriving DecidableEq, Repr

/-- The struct `OSState`; `fileCount` is `files.length`. -/
structure OSState where
  files : List File
  running : Bool
  currentDirectory : Str
  deriving DecidableEq, Repr

/-- The number of used slots, `os->fileCount`. -/
def OSState.fileCount (os : OSState) : Nat := os.files.length

/-- One line printed by `listFiles` for an entry: the permission string, whether the
`[DIR] ` tag is printed, and the displayed name. -/
structure ListRow where
  permStr : Str
  dirTag : Bool
  displayName : Str
  deriving DecidableEq, Repr

/-- What an engine function prints; one constructor for each `printf` call site text. -/
inductive Output where
  /-- The text `File not found: %s`. -/
  | fileNotFound (name : Str)
  /-- The text `Moved %s to %s`. -/
  | moved (source newName : Str)
  /-- The text `Destination exists and is not a directory: %s`. -/
  | destNotDirectory (destination : Str)
  /-- The text `Cannot move file: maximum number of files reached`. -/
  | moveTableFull
  /-- The text `Renamed %s to %s`. -/
  | renamed (oldname newname : Str)
  /-- The text `Deleted %s`. -/
  | deleted (filename : Str)
  /-- The text `Cannot create file: maximum number of files reached`. -/
  | createTableFull
  /-- The text `File already exists: %s`. -/
  | fileAlreadyExists (filename : Str)
  /-- The text `Created file: %s`. -/
  | createdFile (filename : Str)
  /-- The text `Content written to %s`. -/
  | contentWritten (filename : Str)
  /-- The text `Content of %s:` followed by the content. -/
  | contentOf (filename content : Str)
  /-- The text `Cannot create directory: maximum number of files reached`. -/
  | mkdirTableFull
  /-- The text `Directory/file already exists: %s`. -/
  | dirAlreadyExists (fullPath : Str)
  /-- The text `Created directory: %s`. -/
  | createdDirectory (fullPath : Str)
  /-- The text `%s is not a directory`. -/
  | notADirectory (name : Str)
  /-- The text `Directory not found: %s`. -/
  | directoryNotFound (name : Str)
  /-- The text `Invalid permissions: %d (must be 0-7)`. -/
  | invalidPermissions (permissions : Int)
  /-- The text `Changed permissions of %s to %d`. -/
  | changedPermissions (filename : Str) (permissions : Int)
  /-- The text `Cannot copy file: maximum number of files reached`. -/
  | copyTableFull
  /-- The text `Destination file already exists: %s`. -/
  | destFileAlreadyExists (newName : Str)
  /-- The text `Copied %s to %s`. -/
  | copied (source newName : Str)
  /-- The text `Cannot remove directory: %s is not empty`. -/
  | dirNotEmpty (fullPath : Str)
  /-- The text `Removed directory: %s`. -/
  | removedDirectory (fullPath : Str)
  /-- The header `Files in %s:` followed by one line for each row. -/
  | listing (currentDirectory : Str) (rows : List ListRow)
  /-- Nothing is printed (`cd /`, `cd ..`, a successful `cd`). -/
  | silent
  deriving DecidableEq, Repr

/-- The search loop shared by all engine functions:
`for (i = 0; i < fileCount; i++) if (files[i].exists && strcmp(files[i].name, name) == 0)
{ index = i; break; }`.  Returns the index found together with the entry stored there. -/
def findLive : List File → Str → Option (Nat × File)
  | [], _ => none
  | f :: fs, name =>
    if f.exists_ = true ∧ f.name = name then some (0, f)
    else (findLive fs name).map (fun r => (r.1 + 1, r.2))

/-- The assignment `files[i] = g files[i]` on the list of slots. -/
def modifyAt (g : File → File) : List File → Nat → List File
  | [], _ => []
  | f :: fs, 0 => g f :: fs
  | f :: fs, i + 1 => f :: modifyAt g fs i

/-- The function `strrchr(s, c)`: the offset of the last occurrence of `c`, if any. -/
def strrchr : Str → Char → Option Nat
  | [], _ => none
  | x :: xs, c =>
    match strrchr xs c with
    | some i => some (i + 1)
    | none => if x = c then some 0 else none

/-- The test `strchr(s, c) != NULL`. -/
def strchrFound (s : Str) (c : Char) : Bool := decide (c ∈ s)

/-- The test `strncmp(a, b, n) == 0` on NUL-free strings: the first `n` characters agree
(a string shorter than `n` is compared up to its end). -/
def strncmpEq (a b : Str) (n : Nat) : Bool := decide (a.take n = b.take n)

/-- The function `initializeOS`. -/
def initializeOS : OSState :=
  { files :=
      [ { name := "/".toList, content := [], exists_ := true, isDirectory := true,
          permissions := 7 },
        { name := "readme.txt".toList, content := "Welcome to SimpleOS!".toList,
          exists_ := true, isDirectory := false, permissions := 6 },
        { name := "sample.txt".toList, content := "This is a sample file.".toList,
          exists_ := true, isDirectory := false, permissions := 6 },
        { name := "docs".toList, content := [], exists_ := true, isDirectory := true,
          permissions := 7 } ],
    running := true,
    currentDirectory := "/".toList }

/-- The permission string built by `listFiles`: starts as `---`, then `r`, `w`, `x` are
written where `permissions & 4`, `& 2`, `& 1` are non-zero. -/
def permStr (permissions : Int) : Str :=
  [ if Int.land permissions 4 ≠ 0 then 'r' else '-',
    if Int.land permissions 2 ≠ 0 then 'w' else '-',
    if Int.land permissions 1 ≠ 0 then 'x' else '-' ]

/-- The filter of `listFiles`: `true` when the loop body reaches `continue` for a live
entry called `filename`. -/
def listSkips (currentDirectory filename : Str) : Bool :=
  if currentDirectory = "/".toList then
    decide (strrchr filename '/' = some 0 ∧ filename.length > 1)
  else
    let dirPath := currentDirectory ++ "/".toList
    !(strncmpEq filename dirPath dirPath.length) ||
      strchrFound (filename.drop dirPath.length) '/'

/-- The name displayed by `listFiles`: what follows the last `/`, or the whole name. -/
def displayName (filename : Str) : Str :=
  match strrchr filename '/' with
  | some i => filename.drop (i + 1)
  | none => filename

/-- The rows printed by the loop of `listFiles`, in table order. -/
def listRows (currentDirectory : Str) : List File → List ListRow
  | [] => []
  | f :: fs =>
    if f.exists_ = true ∧ listSkips currentDirectory f.name = false then
      { permStr := permStr f.permissions, dirTag := f.isDirectory,
        displayName := displayName f.name } :: listRows currentDirectory fs
    else listRows currentDirectory fs

/-- The function `listFiles`. -/
def listFiles (os : OSState) : OSState × Output :=
  (os, Output.listing os.currentDirectory (listRows os.currentDirectory os.files))

/-- The slot written by `moveFile` and `copyFile` at index `fileCount`:
`strcpy(name, newName)`, then `strcpy(content, files[sourceIndex].content)`, then the
three flags. -/
def copyOf (src : File) (newName : Str) : File :=
  { name := storedName newName src.content, content := src.content, exists_ := true,
    isDirectory := src.isDirectory, permissions := src.permissions }

/-- The second loop of `moveFile` and `copyFile`, which looks for a live entry called
`destination`: `none` when the loop returns early because the entry found is not a
directory, else `some destDirIndex`, where `destDirIndex` is `none` for the C value `-1`. -/
def findDestDir (files : List File) (destination : Str) : Option (Option Nat) :=
  match findLive files destination with
  | some (i, d) => if d.isDirectory = true then some (some i) else none
  | none => some none

/-- The name computed by `moveFile` and `copyFile`: `destination/source` when
`destDirIndex != -1`, else `destination`. -/
def newNameFor (destDirIndex : Option Nat) (source destination : Str) : Str :=
  match destDirIndex with
  | some _ => destination ++ "/".toList ++ source
  | none => destination

/-- The function `moveFile`. -/
def moveFile (os : OSState) (source destination : Str) : OSState × Output :=
  match findLive os.files source with
  | none => (os, Output.fileNotFound source)
  | some (sourceIndex, src) =>
    match findDestDir os.files destination with
    | none => (os, Output.destNotDirectory destination)
    | some destDirIndex =>
      if os.fileCount ≥ MAX_FILES then (os, Output.moveTableFull)
      else
        let newName := newNameFor destDirIndex source destination
        let appended := os.files ++ [copyOf src newName]
        ({ os with files := modifyAt (fun f => { f with exists_ := false }) appended sourceIndex },
          Output.moved source newName)

/-- The assignment `strcpy(files[fileIndex].name, newname)` of `renameFile`: a new name of
50 or more characters also replaces the content, by its characters from the 51st on. -/
def strcpyName (newname : Str) (f : File) : File :=
  { f with name := newname,
           content := if newname.length < MAX_FILENAME_LENGTH then f.content
                      else newname.drop MAX_FILENAME_LENGTH }

/-- The function `renameFile`. -/
def renameFile (os : OSState) (oldname newname : Str) : OSState × Output :=
  match findLive os.files oldname with
  | none => (os, Output.fileNotFound oldname)
  | some (fileIndex, _) =>
    ({ os with files := modifyAt (strcpyName newname) os.files fileIndex },
      Output.renamed oldname newname)

/-- The function `deleteFile`. -/
def deleteFile (os : OSState) (filename : Str) : OSState × Output :=
  match findLive os.files filename with
  | none => (os, Output.fileNotFound filename)
  | some (fileIndex, _) =>
    ({ os with files := modifyAt (fun f => { f with exists_ := false }) os.files fileIndex },
      Output.deleted filename)

/-- The function `createFile`.  The new slot gets `strcpy(name, filename)` and then
`content[0] = 0`, so it reads back the first 50 characters of a longer name. -/
def createFile (os : OSState) (filename : Str) : OSState × Output :=
  if os.fileCount ≥ MAX_FILES then (os, Output.createTableFull)
  else
    match findLive os.files filename with
    | some _ => (os, Output.fileAlreadyExists filename)
    | none =>
      ({ os with files := os.files ++
            [{ name := storedName filename [], content := [], exists_ := true,
               isDirectory := false, permissions := 6 }] },
        Output.createdFile filename)

/-- The assignment `strcpy(files[fileIndex].content, content)` of `writeToFile`: a slot
whose name fills `name[50]` reads its name on into the new content. -/
def strcpyContent (content : Str) (f : File) : File :=
  { f with name := storedName f.name content, content := content }

/-- The function `writeToFile`. -/
def writeToFile (os : OSState) (filename content : Str) : OSState × Output :=
  match findLive os.files filename with
  | none => (os, Output.fileNotFound filename)
  | some (fileIndex, _) =>
    ({ os with files := modifyAt (strcpyContent content) os.files fileIndex },
      Output.contentWritten filename)

/-- The function `readFile`. -/
def readFile (os : OSState) (filename : Str) : OSState × Output :=
  match findLive os.files filename with
  | none => (os, Output.fileNotFound filename)
  | some (_, f) => (os, Output.contentOf filename f.content)

/-- The path `fullPath` computed by `makeDirectory` and `removeDirectory`: `dirname` itself
when `dirname[0] == '/'`, else `/dirname` at the root and `currentDirectory/dirname`
elsewhere. -/
def fullPath (currentDirectory dirname : Str) : Str :=
  if dirname.head? = some '/' then dirname
  else if currentDirectory = "/".toList then "/".toList ++ dirname
  else currentDirectory ++ "/".toList ++ dirname

/-- The function `makeDirectory`.  The new slot gets `strcpy(name, fullPath)` and then
`content[0] = 0`, so it reads back the first 50 characters of a longer path. -/
def makeDirectory (os : OSState) (dirname : Str) : OSState × Output :=
  if os.fileCount ≥ MAX_FILES then (os, Output.mkdirTableFull)
  else
    let full := fullPath os.currentDirectory dirname
    match findLive os.files full with
    | some _ => (os, Output.dirAlreadyExists full)
    | none =>
      ({ os with files := os.files ++
            [{ name := storedName full [], content := [], exists_ := true,
               isDirectory := true, permissions := 7 }] },
        Output.createdDirectory full)

/-- The function `changeDirectory`, with the outcome of its one undefined call as a
parameter: `selfSprintf d n` is the string that
`sprintf(currentDirectory, "%s/%s", currentDirectory, dirname)` leaves in
`currentDirectory` when it held `d` and `dirname` is `n`.  The destination is also an
argument of that call, which C leaves undefined. -/
def changeDirectoryWith (selfSprintf : Str → Str → Str) (os : OSState) (dirname : Str) :
    OSState × Output :=
  if dirname = "/".toList then ({ os with currentDirectory := "/".toList }, Output.silent)
  else if dirname = "..".toList then
    match strrchr os.currentDirectory '/' with
    | some (i + 1) =>
      ({ os with currentDirectory := os.currentDirectory.take (i + 1) }, Output.silent)
    | _ => ({ os with currentDirectory := "/".toList }, Output.silent)
  else
    match findLive os.files dirname with
    | none => (os, Output.directoryNotFound dirname)
    | some (_, d) =>
      if d.isDirectory = true then
        if os.currentDirectory = "/".toList then
          ({ os with currentDirectory := "/".toList ++ dirname }, Output.silent)
        else
          ({ os with currentDirectory := selfSprintf os.currentDirectory dirname },
            Output.silent)
      else (os, Output.notADirectory dirname)

/-- The outcome of the overlapping `sprintf` on a build that formats from the old
content of the buffer: the old current directory, a `/`, and `dirname`. -/
def plainSelfSprintf (d n : Str) : Str := d ++ "/".toList ++ n

/-- The outcome of the overlapping `sprintf` on a build that has already emptied the
destination when it reads it as an argument: a `/` and `dirname`. -/
def emptiedSelfSprintf (_d n : Str) : Str := "/".toList ++ n

/-- The function `changeDirectory`, with the overlapping `sprintf` taken to produce the
old current directory, a `/`, and `dirname`. -/
def changeDirectory (os : OSState) (dirname : Str) : OSState × Output :=
  changeDirectoryWith plainSelfSprintf os dirname

/-- The function `setPermissions`. -/
def setPermissions (os : OSState) (filename : Str) (permissions : Int) : OSState × Output :=
  match findLive os.files filename with
  | none => (os, Output.fileNotFound filename)
  | some (fileIndex, _) =>
    if permissions < 0 ∨ permissions > 7 then (os, Output.invalidPermissions permissions)
    else
      ({ os with files :=
            modifyAt (fun f => { f with permissions := permissions }) os.files fileIndex },
        Output.changedPermissions filename permissions)

/-- The function `copyFile`. -/
def copyFile (os : OSState) (source destination : Str) : OSState × Output :=
  match findLive os.files source with
  | none => (os, Output.fileNotFound source)
  | some (_, src) =>
    match findDestDir os.files destination with
    | none => (os, Output.destNotDirectory destination)
    | some destDirIndex =>
      if os.fileCount ≥ MAX_FILES then (os, Output.copyTableFull)
      else
        let newName := newNameFor destDirIndex source destination
        match findLive os.files newName with
        | some _ => (os, Output.destFileAlreadyExists newName)
        | none =>
          ({ os with files := os.files ++ [copyOf src newName] },
            Output.copied source newName)

/-- The string `dirPath` of `isDirectoryEmpty`: `/` for the root, else `dirname/`. -/
def dirPathOf (dirname : Str) : Str :=
  if dirname = "/".toList then "/".toList else dirname ++ "/".toList

/-- The loop of `isDirectoryEmpty`: `false` as soon as a live entry has `dirPath` as the
first `dirPathLen` characters of its name and a name other than `dirname`. -/
def isDirectoryEmptyLoop (dirname dirPath : Str) : List File → Bool
  | [] => true
  | f :: fs =>
    if f.exists_ = true ∧ strncmpEq f.name dirPath dirPath.length = true ∧ f.name ≠ dirname
    then false
    else isDirectoryEmptyLoop dirname dirPath fs

/-- The function `isDirectoryEmpty`. -/
def isDirectoryEmpty (os : OSState) (dirname : Str) : Bool :=
  isDirectoryEmptyLoop dirname (dirPathOf dirname) os.files

/-- The function `removeDirectory`. -/
def removeDirectory (os : OSState) (dirname : Str) : OSState × Output :=
  let full := fullPath os.currentDirectory dirname
  match findLive os.files full with
  | none => (os, Output.directoryNotFound full)
  | some (dirIndex, d) =>
    if d.isDirectory = true then
      if isDirectoryEmpty os full = true then
        ({ os with files :=
              modifyAt (fun f => { f with exists_ := false }) os.files dirIndex },
          Output.removedDirectory full)
      else (os, Output.dirNotEmpty full)
    else (os, Output.notADirectory full)

/-- The engine operations, as dispatched by `processCommand`. -/
inductive Cmd where
  | list
  | move (source destination : Str)
  | rename (oldname newname : Str)
  | delete (filename : Str)
  | rmdir (dirname : Str)
  | create (filename : Str)
  | write (filename content : Str)
  | read (filename : Str)
  | mkdir (dirname : Str)
  | cd (dirname : Str)
  | chmod (filename : Str) (permissions : Int)
  | copy (source destination : Str)
  deriving DecidableEq, Repr

/-- One engine operation applied to a state: the new state and what is printed. -/
def step (os : OSState) : Cmd → OSState × Output
  | Cmd.list => listFiles os
  | Cmd.move s d => moveFile os s d
  | Cmd.rename o n => renameFile os o n
  | Cmd.delete f => deleteFile os f
  | Cmd.rmdir d => removeDirectory os d
  | Cmd.create f => createFile os f
  | Cmd.write f c => writeToFile os f c
  | Cmd.read f => readFile os f
  | Cmd.mkdir d => makeDirectory os d
  | Cmd.cd d => changeDirectory os d
  | Cmd.chmod f p => setPermissions os f p
  | Cmd.copy s d => copyFile os s d

/-- The state after a sequence of engine operations. -/
def run (os : OSState) : List Cmd → OSState
  | [] => os
  | c :: cs => run (step os c).1 cs

/-- The states reachable from the freshly initialised engine. -/
def Reachable (os : OSState) : Prop := ∃ cs : List Cmd, run initializeOS cs = os

/-! ## Predicates and concrete inputs used by the theorems -/

/-- The paths of the live (`exists`) entries, in table order. -/
def liveNames (files : List File) : List Str :=
  (files.filter (fun f => f.exists_)).map File.name

/-- No two live entries have the same path. -/
def UniqueLive (files : List File) : Prop := (liveNames files).Nodup

instance (files : List File) : Decidable (UniqueLive files) := by
  unfold UniqueLive; infer_instance

/-- The table holds a live entry whose path is `/`, which is a directory with
permissions 7. -/
def HasRoot (os : OSState) : Prop :=
  ∃ f ∈ os.files, f.exists_ = true ∧ f.name = "/".toList ∧ f.isDirectory = true ∧
    f.permissions = 7

instance (os : OSState) : Decidable (HasRoot os) := by
  unfold HasRoot; infer_instance

/-- An operation that is not aimed at the path `/`: not a `delete`, `rename`, `move` or
`chmod` whose first argument is `/`, and not an `rmdir` whose `fullPath` is `/`. -/
def sparesRoot (currentDirectory : Str) : Cmd → Bool
  | Cmd.delete f => decide (f ≠ "/".toList)
  | Cmd.rename o _ => decide (o ≠ "/".toList)
  | Cmd.move s _ => decide (s ≠ "/".toList)
  | Cmd.chmod f _ => decide (f ≠ "/".toList)
  | Cmd.rmdir d => decide (fullPath currentDirectory d ≠ "/".toList)
  | _ => true

/-- Every operation of the sequence, run from `os`, spares the root. -/
def sparesRootAlong (os : OSState) : List Cmd → Bool
  | [] => true
  | c :: cs => sparesRoot os.currentDirectory c && sparesRootAlong (step os c).1 cs

/-- The name made of `n` characters `a`. -/
def aName (n : Nat) : Str := List.replicate n 'a'

/-- The command sequence `create x`, `delete x`, repeated `n` times. -/
def churn (x : Str) : Nat → List Cmd
  | 0 => []
  | n + 1 => Cmd.create x :: Cmd.delete x :: churn x n

/-- The path `p` is a descendant of the directory path `dir`: it begins with `dir`
followed by `/` (for the root, with `/`) and is not `dir` itself. -/
def isDescendantOf (p dir : Str) : Prop :=
  (if dir = "/".toList then "/".toList else dir ++ "/".toList) <+: p ∧ p ≠ dir

instance (p dir : Str) : Decidable (isDescendantOf p dir) := by
  unfold isDescendantOf; infer_instance

/-- Some live entry of the table is a descendant of `dir`. -/
def hasLiveDescendant (files : List File) (dir : Str) : Prop :=
  ∃ f ∈ files, f.exists_ = true ∧ isDescendantOf f.name dir

instance (files : List File) (dir : Str) : Decidable (hasLiveDescendant files dir) := by
  unfold hasLiveDescendant; infer_instance

/-- The destination name in the words of the specification: `destination/source` if
`destination` is the path of a live directory, else `destination`. -/
def copyTargetName (files : List File) (source destination : Str) : Str :=
  if ∃ f ∈ files, f.exists_ = true ∧ f.name = destination ∧ f.isDirectory = true then
    destination ++ "/".toList ++ source
  else destination

/-- The path `p` is a direct child of the directory path `dir`: it begins with `dir`
followed by `/` and contains no further `/` after that. -/
def isDirectChildOf (p dir : Str) : Prop :=
  (dir ++ "/".toList) <+: p ∧ '/' ∉ p.drop (dir.length + 1)

instance (p dir : Str) : Decidable (isDirectChildOf p dir) := by
  unfold isDirectChildOf; infer_instance

/-- Every live directory entry has empty content. -/
def DirectoriesEmpty (os : OSState) : Prop :=
  ∀ f ∈ os.files, f.exists_ = true → f.isDirectory = true → f.content = []

instance (os : OSState) : Decidable (DirectoriesEmpty os) := by
  unfold DirectoriesEmpty; infer_instance

/-- The operation is a `write` whose search stops at a directory entry. -/
def writesToDirectory (os : OSState) : Cmd → Bool
  | Cmd.write f _ =>
    match findLive os.files f with
    | some (_, e) => e.isDirectory
    | none => false
  | _ => false

/-- No operation of the sequence, run from `os`, is a `write` to a directory. -/
def noDirectoryWriteAlong (os : OSState) : List Cmd → Bool
  | [] => true
  | c :: cs => !writesToDirectory os c && noDirectoryWriteAlong (step os c).1 cs

/-- The path of the name `rawName` given in the directory `currentDirectory`, in the words
of the specification: `rawName` itself if it starts with `/`, else `currentDirectory` and
`rawName` joined by exactly one `/` (no `/` is added after the root `/`). -/
def canonicalize (rawName currentDirectory : Str) : Str :=
  match rawName with
  | '/' :: _ => rawName
  | _ => if currentDirectory = "/".toList then '/' :: rawName
         else currentDirectory ++ '/' :: rawName

/-- The operation overruns none of the arrays of the program: its arguments fit the
50-byte arrays they are read into, a content fits `content[1024]`, and the name or path
that the operation builds (`newName`, `fullPath`, the new `currentDirectory`) fits its
50-byte array. -/
def fitsBuffers (os : OSState) : Cmd → Bool
  | Cmd.list => true
  | Cmd.move s d =>
    decide (s.length < MAX_FILENAME_LENGTH ∧ d.length < MAX_FILENAME_LENGTH ∧
      (copyTargetName os.files s d).length < MAX_FILENAME_LENGTH)
  | Cmd.rename o n =>
    decide (o.length < MAX_FILENAME_LENGTH ∧ n.length < MAX_FILENAME_LENGTH)
  | Cmd.delete f => decide (f.length < MAX_FILENAME_LENGTH)
  | Cmd.rmdir d =>
    decide (d.length < MAX_FILENAME_LENGTH ∧
      (fullPath os.currentDirectory d).length < MAX_FILENAME_LENGTH)
  | Cmd.create f => decide (f.length < MAX_FILENAME_LENGTH)
  | Cmd.write f c => decide (f.length < MAX_FILENAME_LENGTH ∧ c.length < CONTENT_SIZE)
  | Cmd.read f => decide (f.length < MAX_FILENAME_LENGTH)
  | Cmd.mkdir d =>
    decide (d.length < MAX_FILENAME_LENGTH ∧
      (fullPath os.currentDirectory d).length < MAX_FILENAME_LENGTH)
  | Cmd.cd d =>
    decide (d.length < MAX_FILENAME_LENGTH ∧
      (d = "/".toList ∨ d = "..".toList ∨
        (if os.currentDirectory = "/".toList then 1 + d.length
         else os.currentDirectory.length + 1 + d.length) < MAX_FILENAME_LENGTH))
  | Cmd.chmod f _ => decide (f.length < MAX_FILENAME_LENGTH)
  | Cmd.copy s d =>
    decide (s.length < MAX_FILENAME_LENGTH ∧ d.length < MAX_FILENAME_LENGTH ∧
      (copyTargetName os.files s d).length < MAX_FILENAME_LENGTH)

/-- Every operation of the sequence, run from `os`, stays within the arrays. -/
def fitsBuffersAlong (os : OSState) : List Cmd → Bool
  | [] => true
  | c :: cs => fitsBuffers os c && fitsBuffersAlong (step os c).1 cs

/-- What a lookup of the path `Q` shows: the content, directory flag and permissions of the
first live entry called `Q`, or nothing when `Q` is not live. -/
def lookupView (files : List File) (Q : Str) : Option (Str × Bool × Int) :=
  (findLive files Q).map (fun r => (r.2.content, r.2.isDirectory, r.2.permissions))

set_option maxRecDepth 100000

/-! ## The search loop and in-place assignment -/

theorem findLive_eq_none_iff (fs : List File) (n : Str) :
    findLive fs n = none ↔ ∀ f ∈ fs, ¬(f.exists_ = true ∧ f.name = n) := by
  induction fs with
  | nil => simp [findLive]
  | cons f fs ih =>
    by_cases h : f.exists_ = true ∧ f.name = n
    · simp [findLive, h]
    · simp only [findLive, h, if_false, Option.map_eq_none', ih, List.mem_cons, forall_eq_or_imp,
        not_false_eq_true, true_and]

theorem findLive_some_spec {fs : List File} {n : Str} {i : Nat} {f : File}
    (h : findLive fs n = some (i, f)) :
    fs[i]? = some f ∧ f.exists_ = true ∧ f.name = n := by
  induction fs generalizing i with
  | nil => simp [findLive] at h
  | cons g fs ih =>
    by_cases hg : g.exists_ = true ∧ g.name = n
    · simp only [findLive, hg, and_self, if_true, Option.some.injEq, Prod.mk.injEq] at h
      obtain ⟨rfl, rfl⟩ := h
      exact ⟨by simp, hg.1, hg.2⟩
    · simp only [findLive, hg, if_false, Option.map_eq_some'] at h
      obtain ⟨⟨j, f1⟩, hj, he⟩ := h
      simp only [Prod.mk.injEq] at he
      obtain ⟨rfl, rfl⟩ := he
      have := ih hj
      simpa using this

theorem findLive_isSome_of_mem {fs : List File} {n : Str} {f : File}
    (hf : f ∈ fs) (he : f.exists_ = true) (hn : f.name = n) :
    ∃ r, findLive fs n = some r := by
  cases h : findLive fs n with
  | none => exact absurd ⟨he, hn⟩ ((findLive_eq_none_iff fs n).1 h f hf)
  | some r => exact ⟨r, rfl⟩

theorem findLive_lt_length {fs : List File} {n : Str} {i : Nat} {f : File}
    (h : findLive fs n = some (i, f)) : i < fs.length := by
  have h1 := (findLive_some_spec h).1
  by_contra hlt
  rw [List.getElem?_eq_none (by omega)] at h1
  exact Option.noConfusion h1

theorem findLive_append_of_some {fs : List File} {n : Str} {r : Nat × File} (e : File)
    (h : findLive fs n = some r) : findLive (fs ++ [e]) n = some r := by
  induction fs generalizing r with
  | nil => simp [findLive] at h
  | cons g fs ih =>
    by_cases hg : g.exists_ = true ∧ g.name = n
    · simpa [findLive, hg] using h
    · simp only [findLive, hg, if_false, Option.map_eq_some'] at h
      obtain ⟨r1, hr1, he⟩ := h
      simp [findLive, hg, ih hr1, he]

theorem findLive_append_of_none {fs : List File} {n : Str} (e : File)
    (h : findLive fs n = none) :
    findLive (fs ++ [e]) n =
      if e.exists_ = true ∧ e.name = n then some (fs.length, e) else none := by
  induction fs with
  | nil => simp [findLive]
  | cons g fs ih =>
    by_cases hg : g.exists_ = true ∧ g.name = n
    · simp [findLive, hg] at h
    · simp only [findLive, hg, if_false, Option.map_eq_none'] at h
      rw [List.cons_append, findLive, if_neg hg, ih h]
      by_cases he : e.exists_ = true ∧ e.name = n
      · simp [he]
      · simp [he]

theorem modifyAt_length (g : File → File) (fs : List File) (i : Nat) :
    (modifyAt g fs i).length = fs.length := by
  induction fs generalizing i with
  | nil => simp [modifyAt]
  | cons f fs ih =>
    cases i with
    | zero => simp [modifyAt]
    | succ i => simp [modifyAt, ih]

theorem modifyAt_append_of_lt (g : File → File) {fs : List File} (l : List File) {i : Nat}
    (h : i < fs.length) : modifyAt g (fs ++ l) i = modifyAt g fs i ++ l := by
  induction fs generalizing i with
  | nil => simp at h
  | cons x fs ih =>
    cases i with
    | zero => simp [modifyAt]
    | succ i =>
      simp only [List.length_cons, Nat.add_lt_add_iff_right] at h
      simp [modifyAt, ih h]

theorem modifyAt_append_length (g : File → File) (fs : List File) (e : File) :
    modifyAt g (fs ++ [e]) fs.length = fs ++ [g e] := by
  induction fs with
  | nil => simp [modifyAt]
  | cons x fs ih => simp [modifyAt, ih]

/-- Assigning at the index found by the search, with an update that keeps `name` and
`exists`, leaves the search at the same index and shows the updated entry. -/
theorem findLive_modifyAt_same {g : File → File}
    (hg : ∀ f, (g f).exists_ = f.exists_ ∧ (g f).name = f.name)
    {fs : List File} {n : Str} {i : Nat} {f : File}
    (h : findLive fs n = some (i, f)) :
    findLive (modifyAt g fs i) n = some (i, g f) := by
  induction fs generalizing i with
  | nil => simp [findLive] at h
  | cons x fs ih =>
    by_cases hx : x.exists_ = true ∧ x.name = n
    · simp only [findLive, hx, and_self, if_true, Option.some.injEq, Prod.mk.injEq] at h
      obtain ⟨rfl, rfl⟩ := h
      simp [modifyAt, findLive, hg, hx]
    · simp only [findLive, hx, if_false, Option.map_eq_some'] at h
      obtain ⟨⟨j, f1⟩, hj, he⟩ := h
      simp only [Prod.mk.injEq] at he
      obtain ⟨rfl, rfl⟩ := he
      simp [modifyAt, findLive, hx, ih hj]

/-- Assigning at the index found by the search, with an update that keeps the `name` and
`exists` of the entry found, leaves the search at the same index. -/
theorem findLive_modifyAt_same_at {g : File → File} {fs : List File} {n : Str} {i : Nat}
    {f : File} (h : findLive fs n = some (i, f))
    (hg : (g f).exists_ = f.exists_ ∧ (g f).name = f.name) :
    findLive (modifyAt g fs i) n = some (i, g f) := by
  induction fs generalizing i with
  | nil => simp [findLive] at h
  | cons x fs ih =>
    by_cases hx : x.exists_ = true ∧ x.name = n
    · simp only [findLive, hx, and_self, if_true, Option.some.injEq, Prod.mk.injEq] at h
      obtain ⟨rfl, rfl⟩ := h
      simp [modifyAt, findLive, hg, hx]
    · simp only [findLive, hx, if_false, Option.map_eq_some'] at h
      obtain ⟨⟨j, f1⟩, hj, he⟩ := h
      simp only [Prod.mk.injEq] at he
      obtain ⟨rfl, rfl⟩ := he
      simp [modifyAt, findLive, hx, ih hj]

theorem mem_modifyAt_or (g : File → File) {fs : List File} {f : File} (i : Nat)
    (hf : f ∈ fs) : f ∈ modifyAt g fs i ∨ g f ∈ modifyAt g fs i := by
  induction fs generalizing i with
  | nil => simp at hf
  | cons x fs ih =>
    cases i with
    | zero =>
      rcases List.mem_cons.1 hf with rfl | h
      · right; simp [modifyAt]
      · left; simp [modifyAt, h]
    | succ i =>
      rcases List.mem_cons.1 hf with rfl | h
      · left; simp [modifyAt]
      · rcases ih i h with h1 | h1
        · left; simp [modifyAt, h1]
        · right; simp [modifyAt, h1]

/-- An entry that the search for `n` cannot stop at survives the assignment at the index
the search returns. -/
theorem mem_modifyAt_of_not_match (g : File → File) {fs : List File} {n : Str} {i : Nat}
    {f0 f : File} (h : findLive fs n = some (i, f0)) (hf : f ∈ fs)
    (hne : ¬(f.exists_ = true ∧ f.name = n)) : f ∈ modifyAt g fs i := by
  induction fs generalizing i with
  | nil => simp at hf
  | cons x fs ih =>
    by_cases hx : x.exists_ = true ∧ x.name = n
    · simp only [findLive, hx, and_self, if_true, Option.some.injEq, Prod.mk.injEq] at h
      obtain ⟨rfl, rfl⟩ := h
      rcases List.mem_cons.1 hf with rfl | h1
      · exact absurd hx hne
      · simp [modifyAt, h1]
    · simp only [findLive, hx, if_false, Option.map_eq_some'] at h
      obtain ⟨⟨j, f1⟩, hj, he⟩ := h
      simp only [Prod.mk.injEq] at he
      obtain ⟨rfl, rfl⟩ := he
      rcases List.mem_cons.1 hf with rfl | h1
      · simp [modifyAt]
      · simp [modifyAt, ih hj h1]

theorem reachable_run (cs : List Cmd) : Reachable (run initializeOS cs) := ⟨cs, rfl⟩

/-! ## Live paths -/

theorem mem_liveNames {fs : List File} {n : Str} :
    n ∈ liveNames fs ↔ ∃ f ∈ fs, f.exists_ = true ∧ f.name = n := by
  simp [liveNames, and_assoc]

theorem findLive_eq_none_iff_not_mem_liveNames (fs : List File) (n : Str) :
    findLive fs n = none ↔ n ∉ liveNames fs := by
  rw [findLive_eq_none_iff, mem_liveNames]
  constructor
  · rintro h ⟨f, hf, hp⟩
    exact h f hf hp
  · intro h f hf hp
    exact h ⟨f, hf, hp⟩

theorem liveNames_cons (x : File) (fs : List File) :
    liveNames (x :: fs) = if x.exists_ = true then x.name :: liveNames fs else liveNames fs := by
  by_cases hx : x.exists_ = true <;> simp [liveNames, List.filter_cons, hx]

theorem liveNames_append (fs : List File) (e : File) :
    liveNames (fs ++ [e]) = liveNames fs ++ (if e.exists_ = true then [e.name] else []) := by
  by_cases he : e.exists_ = true <;> simp [liveNames, List.filter_append, he]

theorem uniqueLive_append {fs : List File} {e : File} (hu : UniqueLive fs)
    (hn : findLive fs e.name = none) : UniqueLive (fs ++ [e]) := by
  unfold UniqueLive at *
  rw [liveNames_append]
  by_cases he : e.exists_ = true
  · simp only [he, if_true]
    rw [List.nodup_append]
    refine ⟨hu, List.nodup_singleton _, ?_⟩
    intro a ha hb
    rw [List.mem_singleton] at hb
    subst hb
    exact (findLive_eq_none_iff_not_mem_liveNames fs _).1 hn ha
  · simpa [he] using hu

theorem liveNames_modifyAt_same {g : File → File}
    (hg : ∀ f, (g f).exists_ = f.exists_ ∧ (g f).name = f.name) (fs : List File) (i : Nat) :
    liveNames (modifyAt g fs i) = liveNames fs := by
  induction fs generalizing i with
  | nil => rfl
  | cons x fs ih =>
    cases i with
    | zero => simp [modifyAt, liveNames_cons, hg]
    | succ i => simp [modifyAt, liveNames_cons, ih]

theorem liveNames_modifyAt_same_at {g : File → File} {fs : List File} {i : Nat} {f0 : File}
    (h : fs[i]? = some f0) (hg : (g f0).exists_ = f0.exists_ ∧ (g f0).name = f0.name) :
    liveNames (modifyAt g fs i) = liveNames fs := by
  induction fs generalizing i with
  | nil => rfl
  | cons x fs ih =>
    cases i with
    | zero =>
      simp only [List.getElem?_cons_zero, Option.some.injEq] at h
      subst h
      simp [modifyAt, liveNames_cons, hg]
    | succ i =>
      simp only [List.getElem?_cons_succ] at h
      simp [modifyAt, liveNames_cons, ih h]

theorem changeDirectoryWith_files (ov : Str → Str → Str) (os : OSState) (d : Str) :
    (changeDirectoryWith ov os d).1.files = os.files := by
  unfold changeDirectoryWith
  repeat' split
  all_goals rfl

theorem changeDirectory_files (os : OSState) (d : Str) :
    (changeDirectory os d).1.files = os.files :=
  changeDirectoryWith_files _ os d

theorem liveNames_modifyAt_kill_sublist (fs : List File) (i : Nat) :
    (liveNames (modifyAt (fun f => { f with exists_ := false }) fs i)).Sublist
      (liveNames fs) := by
  induction fs generalizing i with
  | nil => exact List.Sublist.refl _
  | cons x fs ih =>
    cases i with
    | zero =>
      by_cases hx : x.exists_ = true
      · simp [modifyAt, liveNames_cons, hx]
      · simp [modifyAt, liveNames_cons, hx]
    | succ i =>
      by_cases hx : x.exists_ = true
      · simpa [modifyAt, liveNames_cons, hx] using ih i
      · simpa [modifyAt, liveNames_cons, hx] using ih i

/-- With unique live paths, marking the entry found for `n` as deleted leaves no live
entry called `n`. -/
theorem findLive_modifyAt_kill {fs : List File} {n : Str} {i : Nat} {f : File}
    (hu : UniqueLive fs) (h : findLive fs n = some (i, f)) :
    findLive (modifyAt (fun f => { f with exists_ := false }) fs i) n = none := by
  induction fs generalizing i with
  | nil => simp [findLive] at h
  | cons x fs ih =>
    unfold UniqueLive at hu ih
    rw [liveNames_cons] at hu
    by_cases hx : x.exists_ = true ∧ x.name = n
    · simp only [findLive, hx, and_self, if_true, Option.some.injEq, Prod.mk.injEq] at h
      obtain ⟨rfl, rfl⟩ := h
      simp only [hx.1, if_true, List.nodup_cons] at hu
      have : findLive fs n = none :=
        (findLive_eq_none_iff_not_mem_liveNames fs n).2 (hx.2 ▸ hu.1)
      simp [modifyAt, findLive, this]
    · simp only [findLive, hx, if_false, Option.map_eq_some'] at h
      obtain ⟨⟨j, f1⟩, hj, he⟩ := h
      simp only [Prod.mk.injEq] at he
      obtain ⟨rfl, rfl⟩ := he
      have hu2 : (liveNames fs).Nodup := by
        by_cases hxe : x.exists_ = true
        · simp only [hxe, if_true, List.nodup_cons] at hu
          exact hu.2
        · simpa [hxe] using hu
      simp [modifyAt, findLive, hx, ih hu2 hj]

/-- With unique live paths, the search for `n` returns every live entry called `n`. -/
theorem findLive_eq_of_uniqueLive {fs : List File} {n : Str} {i : Nat} {f g : File}
    (hu : UniqueLive fs) (h : findLive fs n = some (i, f)) (hg : g ∈ fs)
    (he : g.exists_ = true) (hn : g.name = n) : f = g := by
  induction fs generalizing i with
  | nil => simp at hg
  | cons x fs ih =>
    unfold UniqueLive at hu ih
    rw [liveNames_cons] at hu
    by_cases hx : x.exists_ = true ∧ x.name = n
    · simp only [findLive, hx, and_self, if_true, Option.some.injEq, Prod.mk.injEq] at h
      obtain ⟨rfl, rfl⟩ := h
      rcases List.mem_cons.1 hg with rfl | hg
      · rfl
      · simp only [hx.1, if_true, List.nodup_cons] at hu
        exact absurd (mem_liveNames.2 ⟨g, hg, he, hn.trans hx.2.symm⟩) hu.1
    · simp only [findLive, hx, if_false, Option.map_eq_some'] at h
      obtain ⟨⟨j, f1⟩, hj, hej⟩ := h
      simp only [Prod.mk.injEq] at hej
      obtain ⟨rfl, rfl⟩ := hej
      have hu2 : (liveNames fs).Nodup := by
        by_cases hxe : x.exists_ = true
        · simp only [hxe, if_true, List.nodup_cons] at hu
          exact hu.2
        · simpa [hxe] using hu
      rcases List.mem_cons.1 hg with rfl | hg
      · exact absurd ⟨he, hn⟩ hx
      · exact ih hu2 hj hg

/-! ## When each function succeeds -/

theorem createFile_created_iff (os : OSState) (P : Str) :
    (createFile os P).2 = Output.createdFile P ↔
      os.fileCount < MAX_FILES ∧ findLive os.files P = none := by
  unfold createFile
  by_cases hc : os.fileCount ≥ MAX_FILES
  · simp [hc]
  · cases hf : findLive os.files P with
    | none => simp [hc]; omega
    | some r => simp [hc]

theorem storedName_of_lt {s : Str} (h : s.length < MAX_FILENAME_LENGTH) (c : Str) :
    storedName s c = s := by
  simp [storedName, h]

theorem createFile_eq_of_created {os : OSState} {P : Str}
    (h : (createFile os P).2 = Output.createdFile P) :
    createFile os P =
      ({ os with files := os.files ++
            [{ name := storedName P [], content := [], exists_ := true, isDirectory := false,
               permissions := 6 }] },
        Output.createdFile P) := by
  obtain ⟨hc, hn⟩ := (createFile_created_iff os P).1 h
  have hc2 : ¬ os.fileCount ≥ MAX_FILES := by omega
  simp [createFile, hc2, hn]

theorem deleteFile_deleted_iff (os : OSState) (P : Str) :
    (deleteFile os P).2 = Output.deleted P ↔ ∃ r, findLive os.files P = some r := by
  unfold deleteFile
  cases h : findLive os.files P with
  | none => simp
  | some r => simp

theorem makeDirectory_created_iff (os : OSState) (D : Str) :
    (makeDirectory os D).2 = Output.createdDirectory (fullPath os.currentDirectory D) ↔
      os.fileCount < MAX_FILES ∧ findLive os.files (fullPath os.currentDirectory D) = none := by
  by_cases hc : os.fileCount ≥ MAX_FILES
  · simp [makeDirectory, hc]
  · cases hf : findLive os.files (fullPath os.currentDirectory D) with
    | none => simp only [makeDirectory, hc, hf, if_false, and_true, true_iff]; omega
    | some r => simp [makeDirectory, hc, hf]

theorem makeDirectory_eq_of_created {os : OSState} {D : Str}
    (h : (makeDirectory os D).2 = Output.createdDirectory (fullPath os.currentDirectory D)) :
    makeDirectory os D =
      ({ os with files := os.files ++
            [{ name := storedName (fullPath os.currentDirectory D) [], content := [],
               exists_ := true, isDirectory := true, permissions := 7 }] },
        Output.createdDirectory (fullPath os.currentDirectory D)) := by
  obtain ⟨hc, hn⟩ := (makeDirectory_created_iff os D).1 h
  have hc2 : ¬ os.fileCount ≥ MAX_FILES := by omega
  simp [makeDirectory, hc2, hn]

theorem findDestDir_some_some {fs : List File} {d : Str} {j : Nat}
    (h : findDestDir fs d = some (some j)) :
    ∃ e, findLive fs d = some (j, e) ∧ e.isDirectory = true := by
  unfold findDestDir at h
  cases hf : findLive fs d with
  | none => simp [hf] at h
  | some r =>
    obtain ⟨i, e⟩ := r
    by_cases he : e.isDirectory = true
    · simp only [hf, he, if_true, Option.some.injEq] at h
      exact ⟨e, by rw [h], he⟩
    · simp [hf, he] at h

theorem findDestDir_some_none {fs : List File} {d : Str}
    (h : findDestDir fs d = some none) : findLive fs d = none := by
  unfold findDestDir at h
  cases hf : findLive fs d with
  | none => rfl
  | some r =>
    obtain ⟨i, e⟩ := r
    by_cases he : e.isDirectory = true
    · simp [hf, he] at h
    · simp [hf, he] at h

/-- The name the code computes is the name the specification describes, whenever the
code gets as far as computing it. -/
theorem newNameFor_eq_copyTargetName {fs : List File} {s d : Str} {dd : Option Nat}
    (h : findDestDir fs d = some dd) : newNameFor dd s d = copyTargetName fs s d := by
  cases dd with
  | none =>
    have hn := (findLive_eq_none_iff fs d).1 (findDestDir_some_none h)
    have : ¬ ∃ f ∈ fs, f.exists_ = true ∧ f.name = d ∧ f.isDirectory = true := by
      rintro ⟨f, hf, he, hname, _⟩
      exact hn f hf ⟨he, hname⟩
    simp [newNameFor, copyTargetName, this]
  | some j =>
    obtain ⟨e, he, hdir⟩ := findDestDir_some_some h
    obtain ⟨hget, hex, hname⟩ := findLive_some_spec he
    have : ∃ f ∈ fs, f.exists_ = true ∧ f.name = d ∧ f.isDirectory = true :=
      ⟨e, List.getElem?_mem hget, hex, hname, hdir⟩
    simp [newNameFor, copyTargetName, this]

/-- The two ways `copyFile` can end: nothing changes and `Copied` is not printed, or one
slot is appended. -/
theorem copyFile_cases (os : OSState) (s d : Str) :
    ((copyFile os s d).1 = os ∧ ∀ n, (copyFile os s d).2 ≠ Output.copied s n) ∨
    ∃ i src dd, findLive os.files s = some (i, src) ∧ findDestDir os.files d = some dd ∧
      os.fileCount < MAX_FILES ∧ findLive os.files (newNameFor dd s d) = none ∧
      copyFile os s d =
        ({ os with files := os.files ++ [copyOf src (newNameFor dd s d)] },
          Output.copied s (newNameFor dd s d)) := by
  cases h1 : findLive os.files s with
  | none => left; simp [copyFile, h1]
  | some r =>
    obtain ⟨i, src⟩ := r
    cases h2 : findDestDir os.files d with
    | none => left; simp [copyFile, h1, h2]
    | some dd =>
      by_cases hc : os.fileCount ≥ MAX_FILES
      · left; simp [copyFile, h1, h2, hc]
      · cases h3 : findLive os.files (newNameFor dd s d) with
        | some r3 => left; simp [copyFile, h1, h2, hc, h3]
        | none =>
          right
          exact ⟨i, src, dd, rfl, rfl, by omega, h3, by simp [copyFile, h1, h2, hc, h3]⟩

theorem strncmpEq_length_iff (a b : Str) : strncmpEq a b b.length = true ↔ b <+: a := by
  simp [strncmpEq, List.prefix_iff_eq_take, eq_comm]

theorem dirPathOf_eq (dir : Str) :
    dirPathOf dir = if dir = "/".toList then "/".toList else dir ++ "/".toList := rfl

/-- The loop of `isDirectoryEmpty` answers `true` exactly when no live entry is a
descendant of the directory. -/
theorem isDirectoryEmptyLoop_iff (dir : Str) (fs : List File) :
    isDirectoryEmptyLoop dir (dirPathOf dir) fs = true ↔ ¬ hasLiveDescendant fs dir := by
  induction fs with
  | nil => simp [isDirectoryEmptyLoop, hasLiveDescendant]
  | cons x fs ih =>
    have hx : (x.exists_ = true ∧
        strncmpEq x.name (dirPathOf dir) (dirPathOf dir).length = true ∧ x.name ≠ dir) ↔
        (x.exists_ = true ∧ isDescendantOf x.name dir) := by
      rw [strncmpEq_length_iff, isDescendantOf, dirPathOf_eq]
    by_cases hc : x.exists_ = true ∧
        strncmpEq x.name (dirPathOf dir) (dirPathOf dir).length = true ∧ x.name ≠ dir
    · rw [isDirectoryEmptyLoop, if_pos hc]
      simp only [Bool.false_eq_true, false_iff, not_not]
      exact ⟨x, List.mem_cons_self _ _, hx.1 hc⟩
    · rw [isDirectoryEmptyLoop, if_neg hc, ih]
      constructor
      · rintro h ⟨f, hf, hp⟩
        rcases List.mem_cons.1 hf with rfl | hf
        · exact hc (hx.2 hp)
        · exact h ⟨f, hf, hp⟩
      · rintro h ⟨f, hf, hp⟩
        exact h ⟨f, List.mem_cons_of_mem _ hf, hp⟩

/-! ## C1: unique live paths -/

/-- Every engine operation other than `rename` and `move` that stays within the arrays
of the program keeps live paths unique. -/
theorem uniqueLive_step_of_not_rename_move {os : OSState} (c : Cmd)
    (hu : UniqueLive os.files) (hr : ∀ o n, c ≠ Cmd.rename o n) (hm : ∀ s d, c ≠ Cmd.move s d)
    (hfit : fitsBuffers os c = true) :
    UniqueLive (step os c).1.files := by
  cases c with
  | list => exact hu
  | move s d => exact absurd rfl (hm s d)
  | rename o n => exact absurd rfl (hr o n)
  | delete f =>
    simp only [step, deleteFile]
    cases h1 : findLive os.files f with
    | none => exact hu
    | some r => exact List.Nodup.sublist (liveNames_modifyAt_kill_sublist _ _) hu
  | rmdir d =>
    simp only [step, removeDirectory]
    cases h1 : findLive os.files (fullPath os.currentDirectory d) with
    | none => exact hu
    | some r =>
      obtain ⟨i, f0⟩ := r
      by_cases hd : f0.isDirectory = true
      · by_cases he : isDirectoryEmpty os (fullPath os.currentDirectory d) = true
        · simp only [hd, he, if_true]
          exact List.Nodup.sublist (liveNames_modifyAt_kill_sublist _ _) hu
        · simpa [hd, he] using hu
      · simpa [hd] using hu
  | create f =>
    simp only [step, createFile]
    by_cases hc : os.fileCount ≥ MAX_FILES
    · simpa [hc] using hu
    · simp only [fitsBuffers, decide_eq_true_eq] at hfit
      cases h1 : findLive os.files f with
      | none =>
        simpa [hc, storedName_of_lt hfit] using
          uniqueLive_append (e := ⟨f, [], true, false, 6⟩) hu h1
      | some r => simpa [hc] using hu
  | write f c =>
    simp only [step, writeToFile]
    simp only [fitsBuffers, decide_eq_true_eq] at hfit
    cases h1 : findLive os.files f with
    | none => exact hu
    | some r =>
      obtain ⟨i, f0⟩ := r
      obtain ⟨hget, _, hname⟩ := findLive_some_spec h1
      simp only [UniqueLive]
      rw [liveNames_modifyAt_same_at hget
        ⟨rfl, storedName_of_lt (by rw [hname]; exact hfit.1) c⟩]
      exact hu
  | read f =>
    simp only [step, readFile]
    cases h1 : findLive os.files f with
    | none => exact hu
    | some r => exact hu
  | mkdir d =>
    simp only [step, makeDirectory]
    by_cases hc : os.fileCount ≥ MAX_FILES
    · simpa [hc] using hu
    · simp only [fitsBuffers, decide_eq_true_eq] at hfit
      cases h1 : findLive os.files (fullPath os.currentDirectory d) with
      | none =>
        simpa [hc, storedName_of_lt hfit.2] using
          uniqueLive_append (e := ⟨fullPath os.currentDirectory d, [], true, true, 7⟩) hu h1
      | some r => simpa [hc] using hu
  | cd d =>
    simp only [step, changeDirectory_files]
    exact hu
  | chmod f p =>
    simp only [step, setPermissions]
    cases h1 : findLive os.files f with
    | none => exact hu
    | some r =>
      by_cases hp : p < 0 ∨ p > 7
      · simpa [hp] using hu
      · simp only [hp, if_false, UniqueLive]
        rw [liveNames_modifyAt_same (g := fun x => { x with permissions := p })
          (fun _ => ⟨rfl, rfl⟩)]
        exact hu
  | copy s d =>
    rcases copyFile_cases os s d with ⟨h1, _⟩ | ⟨i, src, dd, _, hdd, _, hn, he⟩
    · simp only [step, h1]; exact hu
    · simp only [fitsBuffers, decide_eq_true_eq] at hfit
      have hlen : (newNameFor dd s d).length < MAX_FILENAME_LENGTH := by
        rw [newNameFor_eq_copyTargetName hdd]; exact hfit.2.2
      have hname : (copyOf src (newNameFor dd s d)).name = newNameFor dd s d :=
        storedName_of_lt hlen _
      simp only [step, he]
      exact uniqueLive_append (e := copyOf src (newNameFor dd s d)) hu (by rw [hname]; exact hn)

/-- Claim C1 (unique live paths), evaluated at the failing input.  From the freshly
initialised engine the single operation `rename readme.txt sample.txt` is accepted and leaves
two live entries, in slots 1 and 2, whose path is `sample.txt`: a reachable state in which
live paths are not unique.  `renameFile` never searches for a live entry at the new name,
which `createFile`, `makeDirectory` and `copyFile` all do before they insert. -/
theorem rename_duplicates_live_path :
    Reachable (run initializeOS [Cmd.rename "readme.txt".toList "sample.txt".toList]) ∧
    (run initializeOS [Cmd.rename "readme.txt".toList "sample.txt".toList]).files =
      [ { name := "/".toList, content := [], exists_ := true, isDirectory := true,
          permissions := 7 },
        { name := "sample.txt".toList, content := "Welcome to SimpleOS!".toList,
          exists_ := true, isDirectory := false, permissions := 6 },
        { name := "sample.txt".toList, content := "This is a sample file.".toList,
          exists_ := true, isDirectory := false, permissions := 6 },
        { name := "docs".toList, content := [], exists_ := true, isDirectory := true,
          permissions := 7 } ] ∧
    ¬ UniqueLive
      (run initializeOS [Cmd.rename "readme.txt".toList "sample.txt".toList]).files := by
  refine ⟨reachable_run _, ?_, ?_⟩ <;> decide

/-- The same defect in `moveFile`: after `copy readme.txt docs`, the operation
`move readme.txt docs` is accepted although `docs/readme.txt` is live, and leaves two
live entries with that path. -/
theorem move_duplicates_live_path :
    (moveFile (run initializeOS [Cmd.copy "readme.txt".toList "docs".toList])
      "readme.txt".toList "docs".toList).2 =
      Output.moved "readme.txt".toList "docs/readme.txt".toList ∧
    ¬ UniqueLive (run initializeOS
      [Cmd.copy "readme.txt".toList "docs".toList,
       Cmd.move "readme.txt".toList "docs".toList]).files := by
  constructor <;> decide

/-! ## C2: the root entry -/

/-- Claim C2 (root is permanent) fails as stated: on the freshly initialised engine
`delete /` prints `Deleted /` and the resulting reachable state has no live entry whose
path is `/`. -/
theorem delete_root_removes_root :
    Reachable (run initializeOS [Cmd.delete "/".toList]) ∧
    (step initializeOS (Cmd.delete "/".toList)).2 = Output.deleted "/".toList ∧
    ¬ HasRoot (run initializeOS [Cmd.delete "/".toList]) := by
  refine ⟨reachable_run _, ?_, ?_⟩ <;> decide

theorem hasRoot_of_files_eq {os os1 : OSState} (h : os1.files = os.files) (hr : HasRoot os) :
    HasRoot os1 := by
  unfold HasRoot at *; rw [h]; exact hr

theorem hasRoot_append {os : OSState} (e : File) (hr : HasRoot os) :
    HasRoot { os with files := os.files ++ [e] } := by
  obtain ⟨f, hf, hp⟩ := hr
  exact ⟨f, List.mem_append_left _ hf, hp⟩

theorem hasRoot_modifyAt_of_ne {os : OSState} (g : File → File) {n : Str} {i : Nat}
    {f0 : File} (hr : HasRoot os) (h : findLive os.files n = some (i, f0))
    (hn : n ≠ "/".toList) : HasRoot { os with files := modifyAt g os.files i } := by
  obtain ⟨f, hf, he, hname, hp⟩ := hr
  refine ⟨f, mem_modifyAt_of_not_match g h hf ?_, he, hname, hp⟩
  rintro ⟨_, h2⟩
  exact hn (h2 ▸ hname)

/-- One operation that spares the root keeps the live root entry. -/
theorem hasRoot_step {os : OSState} (c : Cmd) (hr : HasRoot os)
    (hs : sparesRoot os.currentDirectory c = true) : HasRoot (step os c).1 := by
  cases c with
  | list => exact hr
  | move s d =>
    simp only [sparesRoot, decide_eq_true_eq] at hs
    simp only [step, moveFile]
    cases h1 : findLive os.files s with
    | none => exact hr
    | some r =>
      obtain ⟨i, f0⟩ := r
      cases h2 : findDestDir os.files d with
      | none => exact hr
      | some dd =>
        by_cases hc : os.fileCount ≥ MAX_FILES
        · simpa [hc] using hr
        · simp only [hc, if_false]
          have h3 := findLive_append_of_some (copyOf f0 (newNameFor dd s d)) h1
          exact hasRoot_modifyAt_of_ne _
            (hasRoot_append (copyOf f0 (newNameFor dd s d)) hr) h3 hs
  | rename o n =>
    simp only [sparesRoot, decide_eq_true_eq] at hs
    simp only [step, renameFile]
    cases h1 : findLive os.files o with
    | none => exact hr
    | some r => exact hasRoot_modifyAt_of_ne _ hr h1 hs
  | delete f =>
    simp only [sparesRoot, decide_eq_true_eq] at hs
    simp only [step, deleteFile]
    cases h1 : findLive os.files f with
    | none => exact hr
    | some r => exact hasRoot_modifyAt_of_ne _ hr h1 hs
  | rmdir d =>
    simp only [sparesRoot, decide_eq_true_eq] at hs
    simp only [step, removeDirectory]
    cases h1 : findLive os.files (fullPath os.currentDirectory d) with
    | none => exact hr
    | some r =>
      obtain ⟨i, f0⟩ := r
      by_cases hd : f0.isDirectory = true
      · by_cases he : isDirectoryEmpty os (fullPath os.currentDirectory d) = true
        · simp only [hd, he, if_true]
          exact hasRoot_modifyAt_of_ne _ hr h1 hs
        · simpa [hd, he] using hr
      · simpa [hd] using hr
  | create f =>
    simp only [step, createFile]
    by_cases hc : os.fileCount ≥ MAX_FILES
    · simpa [hc] using hr
    · cases h1 : findLive os.files f with
      | none => simpa [hc] using hasRoot_append _ hr
      | some r => simpa [hc] using hr
  | write f c =>
    simp only [step, writeToFile]
    cases h1 : findLive os.files f with
    | none => exact hr
    | some r =>
      obtain ⟨g, hg, he, hname, hd, hp⟩ := hr
      rcases mem_modifyAt_or (strcpyContent c) r.1 hg with h2 | h2
      · exact ⟨g, h2, he, hname, hd, hp⟩
      · refine ⟨_, h2, he, ?_, hd, hp⟩
        show storedName g.name c = "/".toList
        rw [hname]
        rfl
  | read f =>
    simp only [step, readFile]
    cases h1 : findLive os.files f with
    | none => exact hr
    | some r => exact hr
  | mkdir d =>
    simp only [step, makeDirectory]
    by_cases hc : os.fileCount ≥ MAX_FILES
    · simpa [hc] using hr
    · cases h1 : findLive os.files (fullPath os.currentDirectory d) with
      | none => simpa [hc] using hasRoot_append _ hr
      | some r => simpa [hc] using hr
  | cd d => exact hasRoot_of_files_eq (changeDirectory_files os d) hr
  | chmod f p =>
    simp only [sparesRoot, decide_eq_true_eq] at hs
    simp only [step, setPermissions]
    cases h1 : findLive os.files f with
    | none => exact hr
    | some r =>
      by_cases hp : p < 0 ∨ p > 7
      · simpa [hp] using hr
      · simp only [hp, if_false]
        exact hasRoot_modifyAt_of_ne _ hr h1 hs
  | copy s d =>
    simp only [step, copyFile]
    cases h1 : findLive os.files s with
    | none => exact hr
    | some r =>
      cases h2 : findDestDir os.files d with
      | none => exact hr
      | some dd =>
        by_cases hc : os.fileCount ≥ MAX_FILES
        · simpa [hc] using hr
        · simp only [hc, if_false]
          cases h3 : findLive os.files (newNameFor dd s d) with
          | none => exact hasRoot_append _ hr
          | some r => exact hr

theorem hasRoot_run {os : OSState} (cs : List Cmd) (hr : HasRoot os)
    (hs : sparesRootAlong os cs = true) : HasRoot (run os cs) := by
  induction cs generalizing os with
  | nil => exact hr
  | cons c cs ih =>
    simp only [sparesRootAlong, Bool.and_eq_true] at hs
    exact ih (hasRoot_step c hr hs.1) hs.2

/-- Claim C2, amended: in every state reached from the freshly initialised engine by a
sequence of operations none of which is a `delete`, `rename`, `move` or `chmod` with first
argument `/` or an `rmdir` whose resolved path is `/`, the table contains a live entry
whose path is exactly `/`, which is a directory with permissions 7. -/
theorem root_survives_sparing_operations (cs : List Cmd)
    (hs : sparesRootAlong initializeOS cs = true) : HasRoot (run initializeOS cs) :=
  hasRoot_run cs (by decide) hs

/-- The amended claim C2 at a concrete sequence that creates, deletes, removes, renames,
writes and moves, without aiming at `/`. -/
theorem root_survives_sparing_operations_witness :
    HasRoot (run initializeOS
      [Cmd.mkdir "a".toList, Cmd.delete "readme.txt".toList, Cmd.cd "docs".toList,
       Cmd.rmdir "/a".toList, Cmd.rename "sample.txt".toList "/".toList,
       Cmd.write "/".toList "x".toList, Cmd.move "docs".toList "b".toList]) :=
  root_survives_sparing_operations _ (by decide)

/-! ## C3: write then read -/

/-- Claim C3 (write/read round trip) fails as stated for a path that fills `name[50]`.
After `create` of a name of 50 characters on the freshly initialised engine that name has
a live non-directory entry (slot 4); `write` of `hello` to it prints `Content written`,
and the following `read` of the same name prints `File not found`: the slot now reads
its name on into the content that follows it in the struct. -/
theorem write_then_read_fails_for_full_name :
    Reachable (run initializeOS [Cmd.create (aName 50)]) ∧
    findLive (run initializeOS [Cmd.create (aName 50)]).files (aName 50) =
      some (4, { name := aName 50, content := [], exists_ := true, isDirectory := false,
                 permissions := 6 }) ∧
    (writeToFile (run initializeOS [Cmd.create (aName 50)]) (aName 50) "hello".toList).2 =
      Output.contentWritten (aName 50) ∧
    (readFile (writeToFile (run initializeOS [Cmd.create (aName 50)]) (aName 50)
      "hello".toList).1 (aName 50)).2 = Output.fileNotFound (aName 50) := by
  refine ⟨reachable_run _, ?_, ?_, ?_⟩ <;> decide

/-- Claim C3, amended: for every state, every path `P` of at most 49 characters that has a
live non-directory entry and every content `C` of at most 1023 characters, `write(P, C)`
prints `Content written to P` and a following `read(P)` prints the content `C`, exactly.
The bound on `C` is the capacity of `content[1024]`, whose end is not modelled; the proof
does not use it. -/
theorem write_then_read_roundtrip (os : OSState) (P C : Str)
    (hP : P.length < MAX_FILENAME_LENGTH) (hC : C.length < CONTENT_SIZE)
    (h : ∃ f ∈ os.files, f.exists_ = true ∧ f.name = P ∧ f.isDirectory = false) :
    (writeToFile os P C).2 = Output.contentWritten P ∧
    (readFile (writeToFile os P C).1 P).2 = Output.contentOf P C := by
  have _ := hC
  obtain ⟨f, hf, he, hn, _⟩ := h
  obtain ⟨⟨i, f0⟩, hr⟩ := findLive_isSome_of_mem hf he hn
  have hname := (findLive_some_spec hr).2.2
  have h2 : findLive (modifyAt (strcpyContent C) os.files i) P =
      some (i, strcpyContent C f0) :=
    findLive_modifyAt_same_at hr ⟨rfl, storedName_of_lt (by rw [hname]; exact hP) C⟩
  simp [writeToFile, readFile, hr, h2, strcpyContent]

/-- The amended claim C3 at `readme.txt` of the freshly initialised engine, with content
`hello`. -/
theorem write_then_read_roundtrip_witness :
    (writeToFile initializeOS "readme.txt".toList "hello".toList).2 =
        Output.contentWritten "readme.txt".toList ∧
    (readFile (writeToFile initializeOS "readme.txt".toList "hello".toList).1
        "readme.txt".toList).2 = Output.contentOf "readme.txt".toList "hello".toList :=
  write_then_read_roundtrip initializeOS "readme.txt".toList "hello".toList (by decide)
    (by decide) (by decide)

/-! ## C4: create then read -/

/-- Claim C4 (create yields an empty readable file) fails as stated for a path longer than
`name[50]` holds.  On the freshly initialised engine `create` of a name of 51 characters
prints `Created file`, the new slot reads back only the first 50 characters, and the
following `read` of the 51-character name prints `File not found`. -/
theorem create_then_read_fails_for_long_name :
    (createFile initializeOS (aName 51)).2 = Output.createdFile (aName 51) ∧
    (createFile initializeOS (aName 51)).1.files[4]? =
      some { name := aName 50, content := [], exists_ := true, isDirectory := false,
             permissions := 6 } ∧
    (readFile (createFile initializeOS (aName 51)).1 (aName 51)).2 =
      Output.fileNotFound (aName 51) := by
  refine ⟨?_, ?_, ?_⟩ <;> decide

/-- Claim C4, amended: for every state and every path `P` of at most 49 characters, if
`create(P)` prints `Created file: P`, then an immediately following `read(P)` prints the
empty content, and the entry that the search for `P` returns is the slot just appended: a
live non-directory with empty content and permissions 6. -/
theorem create_then_read_empty (os : OSState) (P : Str)
    (hP : P.length < MAX_FILENAME_LENGTH)
    (h : (createFile os P).2 = Output.createdFile P) :
    (readFile (createFile os P).1 P).2 = Output.contentOf P [] ∧
    findLive (createFile os P).1.files P =
      some (os.fileCount, { name := P, content := [], exists_ := true, isDirectory := false,
                            permissions := 6 }) := by
  obtain ⟨_, hn⟩ := (createFile_created_iff os P).1 h
  have h2 := findLive_append_of_none
    { name := P, content := [], exists_ := true, isDirectory := false, permissions := 6 } hn
  simp only [and_self, if_true] at h2
  rw [createFile_eq_of_created h, storedName_of_lt hP]
  simp [readFile, h2, OSState.fileCount]

/-- The amended claim C4 at `foo.txt` on the freshly initialised engine: the new entry is
slot 4. -/
theorem create_then_read_empty_witness :
    (readFile (createFile initializeOS "foo.txt".toList).1 "foo.txt".toList).2 =
        Output.contentOf "foo.txt".toList [] ∧
    findLive (createFile initializeOS "foo.txt".toList).1.files "foo.txt".toList =
      some (4, { name := "foo.txt".toList, content := [], exists_ := true,
                 isDirectory := false, permissions := 6 }) :=
  create_then_read_empty initializeOS "foo.txt".toList (by decide) (by decide)

/-! ## C5: create twice -/

/-- Claim C5 (duplicate create is rejected as AlreadyExists) fails as stated.  After 95
rounds of `create x`, `delete x` the reachable state uses 99 slots and has no live `x`;
there `create x` succeeds and fills the table, and the second `create x` prints
`Cannot create file: maximum number of files reached`, not `File already exists: x`,
because `createFile` tests the capacity before it searches for the name. -/
theorem create_twice_at_capacity :
    Reachable (run initializeOS (churn "x".toList 95)) ∧
    (run initializeOS (churn "x".toList 95)).fileCount = 99 ∧
    (createFile (run initializeOS (churn "x".toList 95)) "x".toList).2 =
      Output.createdFile "x".toList ∧
    (createFile (createFile (run initializeOS (churn "x".toList 95)) "x".toList).1
      "x".toList).2 = Output.createTableFull ∧
    (createFile (createFile (run initializeOS (churn "x".toList 95)) "x".toList).1
      "x".toList).2 ≠ Output.fileAlreadyExists "x".toList := by
  refine ⟨reachable_run _, ?_, ?_, ?_, ?_⟩ <;> decide

/-- A second way in which a repeated create is not rejected: a name of 51 characters is
stored cut to 50, so the second `create` of it finds no entry with that name and succeeds
again, adding slot 5. -/
theorem create_twice_succeeds_for_long_name :
    (createFile initializeOS (aName 51)).2 = Output.createdFile (aName 51) ∧
    (createFile (createFile initializeOS (aName 51)).1 (aName 51)).2 =
      Output.createdFile (aName 51) ∧
    (createFile (createFile initializeOS (aName 51)).1 (aName 51)).1.fileCount = 6 := by
  refine ⟨?_, ?_, ?_⟩ <;> decide

/-- Claim C5, amended: for every state and every path `P` of at most 49 characters, if
`create(P)` succeeds then a second, immediately following `create(P)` leaves the state
unchanged and fails: with `File already exists: P` when the table is still not full after
the first create (fewer than 100 used slots), and with the capacity message when the
first create filled it. -/
theorem create_twice_rejected (os : OSState) (P : Str)
    (hP : P.length < MAX_FILENAME_LENGTH)
    (h : (createFile os P).2 = Output.createdFile P) :
    (createFile (createFile os P).1 P).1 = (createFile os P).1 ∧
    (createFile (createFile os P).1 P).2 =
      if os.fileCount + 1 < MAX_FILES then Output.fileAlreadyExists P
      else Output.createTableFull := by
  obtain ⟨_, hn⟩ := (createFile_created_iff os P).1 h
  have h2 := findLive_append_of_none
    { name := P, content := [], exists_ := true, isDirectory := false, permissions := 6 } hn
  simp only [and_self, if_true] at h2
  rw [createFile_eq_of_created h, storedName_of_lt hP]
  by_cases hc : os.fileCount + 1 < MAX_FILES
  · have hc2 : ¬ MAX_FILES ≤ os.files.length + 1 := by
      simp only [OSState.fileCount] at hc; omega
    rw [if_pos hc]
    simp [createFile, OSState.fileCount, h2, hc2]
  · have hc2 : MAX_FILES ≤ os.files.length + 1 := by
      simp only [OSState.fileCount] at hc; omega
    rw [if_neg hc]
    simp [createFile, OSState.fileCount, hc2]

/-- The amended claim C5 at `foo.txt` on the freshly initialised engine, where the second
create prints `File already exists: foo.txt`. -/
theorem create_twice_rejected_witness :
    (createFile (createFile initializeOS "foo.txt".toList).1 "foo.txt".toList).1 =
      (createFile initializeOS "foo.txt".toList).1 ∧
    (createFile (createFile initializeOS "foo.txt".toList).1 "foo.txt".toList).2 =
      Output.fileAlreadyExists "foo.txt".toList :=
  create_twice_rejected initializeOS "foo.txt".toList (by decide) (by decide)

/-! ## C6: delete then read -/

/-- In a state with unique live paths, a successful `delete(P)` makes `read(P)` print
`File not found`. -/
theorem delete_then_read_of_uniqueLive (os : OSState) (P : Str) (hu : UniqueLive os.files)
    (h : (deleteFile os P).2 = Output.deleted P) :
    (readFile (deleteFile os P).1 P).2 = Output.fileNotFound P := by
  obtain ⟨⟨i, f⟩, hr⟩ := (deleteFile_deleted_iff os P).1 h
  simp [deleteFile, readFile, hr, findLive_modifyAt_kill hu hr]

/-- Claim C6 (delete makes the path unreadable), evaluated at the failing input.  In the
state reached by `rename readme.txt sample.txt`, `delete sample.txt` prints
`Deleted sample.txt` and the following `read sample.txt` still prints a content, that
of the second live entry called `sample.txt`, instead of `File not found`.  The duplicate
live path comes from the missing search in `renameFile` (see C1). -/
theorem delete_then_read_finds_duplicate :
    Reachable (run initializeOS [Cmd.rename "readme.txt".toList "sample.txt".toList]) ∧
    (deleteFile (run initializeOS [Cmd.rename "readme.txt".toList "sample.txt".toList])
      "sample.txt".toList).2 = Output.deleted "sample.txt".toList ∧
    (readFile (deleteFile
        (run initializeOS [Cmd.rename "readme.txt".toList "sample.txt".toList])
        "sample.txt".toList).1 "sample.txt".toList).2 =
      Output.contentOf "sample.txt".toList "This is a sample file.".toList := by
  refine ⟨reachable_run _, ?_, ?_⟩ <;> decide

/-! ## C7: delete then create -/

/-- Claim C7 (soft-delete does not block path reuse) fails as stated.  After 96 rounds of
`create x`, `delete x` the reachable state uses all 100 slots; there `delete readme.txt`
succeeds and the following `create readme.txt` prints
`Cannot create file: maximum number of files reached`: the deleted slot is not reclaimed. -/
theorem delete_then_create_at_capacity :
    Reachable (run initializeOS (churn "x".toList 96)) ∧
    (run initializeOS (churn "x".toList 96)).fileCount = 100 ∧
    (deleteFile (run initializeOS (churn "x".toList 96)) "readme.txt".toList).2 =
      Output.deleted "readme.txt".toList ∧
    (createFile (deleteFile (run initializeOS (churn "x".toList 96)) "readme.txt".toList).1
      "readme.txt".toList).2 = Output.createTableFull := by
  refine ⟨reachable_run _, ?_, ?_, ?_⟩ <;> decide

/-- Claim C7, amended: for every state with fewer than 100 used slots and unique live
paths, and every path `P` for which `delete(P)` succeeds, an immediately following
`create(P)` succeeds. -/
theorem delete_then_create_succeeds (os : OSState) (P : Str)
    (hc : os.fileCount < MAX_FILES) (hu : UniqueLive os.files)
    (h : (deleteFile os P).2 = Output.deleted P) :
    (createFile (deleteFile os P).1 P).2 = Output.createdFile P := by
  obtain ⟨⟨i, f⟩, hr⟩ := (deleteFile_deleted_iff os P).1 h
  rw [createFile_created_iff]
  simp only [deleteFile, hr, OSState.fileCount, modifyAt_length]
  exact ⟨hc, findLive_modifyAt_kill hu hr⟩

/-- The amended claim C7 at `readme.txt` on the freshly initialised engine. -/
theorem delete_then_create_succeeds_witness :
    (createFile (deleteFile initializeOS "readme.txt".toList).1 "readme.txt".toList).2 =
      Output.createdFile "readme.txt".toList :=
  delete_then_create_succeeds initializeOS "readme.txt".toList (by decide) (by decide)
    (by decide)

/-! ## C8: mkdir then rmdir -/

/-- The path that `makeDirectory` and `removeDirectory` build is the canonical path of
the specification. -/
theorem fullPath_eq_canonicalize (currentDirectory dirname : Str) :
    fullPath currentDirectory dirname = canonicalize dirname currentDirectory := by
  cases dirname with
  | nil => simp [fullPath, canonicalize]
  | cons c cs =>
    by_cases hc : c = '/'
    · subst hc
      simp [fullPath, canonicalize]
    · have hne : ∀ t, c :: cs ≠ '/' :: t := fun t h => hc (List.cons.inj h).1
      by_cases hroot : currentDirectory = "/".toList
      · simp [fullPath, canonicalize, hc, hroot]
      · simp [fullPath, canonicalize, hc, hroot]

/-- A directory with a live descendant away from the root: in `/docs`, after `mkdir a/b`
and `mkdir a`, the operation `rmdir a` is refused and changes nothing. -/
theorem mkdir_then_rmdir_not_empty_example :
    removeDirectory (run initializeOS
        [Cmd.cd "docs".toList, Cmd.mkdir "a/b".toList, Cmd.mkdir "a".toList]) "a".toList =
      (run initializeOS
        [Cmd.cd "docs".toList, Cmd.mkdir "a/b".toList, Cmd.mkdir "a".toList],
        Output.dirNotEmpty "/docs/a".toList) := by
  decide

/-! ## C9: move into a directory -/

/-- In a state with unique live paths and a free slot, moving a live `source` into a live
directory `dirName`, when `dirName/source` has at most 49 characters, prints `Moved`,
appends a live copy of the source entry at `dirName/source`, and leaves no live entry
called `source`. -/
theorem move_into_directory_of_uniqueLive (os : OSState) (source dirName : Str)
    (i : Nat) (src d : File) (hc : os.fileCount < MAX_FILES) (hu : UniqueLive os.files)
    (hs : findLive os.files source = some (i, src))
    (hd : d ∈ os.files) (hde : d.exists_ = true) (hdn : d.name = dirName)
    (hdd : d.isDirectory = true)
    (hfit : (dirName ++ "/".toList ++ source).length < MAX_FILENAME_LENGTH) :
    moveFile os source dirName =
      ({ os with files := modifyAt (fun f => { f with exists_ := false }) os.files i ++
            [copyOf src (dirName ++ "/".toList ++ source)] },
        Output.moved source (dirName ++ "/".toList ++ source)) ∧
    findLive (moveFile os source dirName).1.files source = none := by
  obtain ⟨⟨j, d1⟩, hj⟩ := findLive_isSome_of_mem hd hde hdn
  have hd1 : d1 = d := findLive_eq_of_uniqueLive hu hj hd hde hdn
  subst hd1
  have hdest : findDestDir os.files dirName = some (some j) := by
    simp [findDestDir, hj, hdd]
  have hc2 : ¬ os.fileCount ≥ MAX_FILES := by omega
  have hlt := findLive_lt_length hs
  have hmove : moveFile os source dirName =
      ({ os with files := modifyAt (fun f => { f with exists_ := false }) os.files i ++
            [copyOf src (dirName ++ "/".toList ++ source)] },
        Output.moved source (dirName ++ "/".toList ++ source)) := by
    simp [moveFile, hs, hdest, hc2, newNameFor, modifyAt_append_of_lt _ _ hlt]
  refine ⟨hmove, ?_⟩
  rw [hmove]
  have hkill := findLive_modifyAt_kill hu hs
  have hne : ¬((copyOf src (dirName ++ "/".toList ++ source)).exists_ = true ∧
      (copyOf src (dirName ++ "/".toList ++ source)).name = source) := by
    rintro ⟨_, h2⟩
    have h3 : (copyOf src (dirName ++ "/".toList ++ source)).name =
        dirName ++ "/".toList ++ source := storedName_of_lt hfit _
    rw [h3] at h2
    have := congrArg List.length h2
    simp at this
    omega
  have happ := findLive_append_of_none (copyOf src (dirName ++ "/".toList ++ source)) hkill
  rw [if_neg hne] at happ
  exact happ

/-- Claim C9 (move into a directory), evaluated at the failing input.  In the state reached
by `rename readme.txt sample.txt` (4 of 100 slots used, `sample.txt` live, `docs` a live
directory), `move sample.txt docs` prints `Moved sample.txt to docs/sample.txt`, yet
a lookup of `sample.txt` afterwards still finds a live entry, the one in slot 2.  The
duplicate live path comes from the missing search in `renameFile` (see C1). -/
theorem move_leaves_duplicate_source_live :
    Reachable (run initializeOS [Cmd.rename "readme.txt".toList "sample.txt".toList]) ∧
    (run initializeOS [Cmd.rename "readme.txt".toList "sample.txt".toList]).fileCount = 4 ∧
    (moveFile (run initializeOS [Cmd.rename "readme.txt".toList "sample.txt".toList])
      "sample.txt".toList "docs".toList).2 =
      Output.moved "sample.txt".toList "docs/sample.txt".toList ∧
    findLive (moveFile (run initializeOS [Cmd.rename "readme.txt".toList "sample.txt".toList])
      "sample.txt".toList "docs".toList).1.files "sample.txt".toList =
      some (2, { name := "sample.txt".toList, content := "This is a sample file.".toList,
                 exists_ := true, isDirectory := false, permissions := 6 }) := by
  refine ⟨reachable_run _, ?_, ?_, ?_⟩ <;> decide

/-! ## C10: copy -/

/-- Claim C10 (copy never touches existing entries and refuses an occupied target) fails as
stated when the computed name is longer than `name[50]` holds.  After `copy docs N`, with
`N` a free name of 40 characters, `N` is a live directory; `copy readme.txt N` prints
`Copied` with the computed name `N/readme.txt` of 51 characters, but the new slot reads
back the first 50 characters of that name followed by the copied content, and `read` of
the computed name prints `File not found` where `read readme.txt` prints the content. -/
theorem copy_fails_for_long_computed_name :
    Reachable (run initializeOS [Cmd.copy "docs".toList (aName 40)]) ∧
    (copyFile (run initializeOS [Cmd.copy "docs".toList (aName 40)]) "readme.txt".toList
      (aName 40)).2 =
      Output.copied "readme.txt".toList (aName 40 ++ "/readme.txt".toList) ∧
    (copyFile (run initializeOS [Cmd.copy "docs".toList (aName 40)]) "readme.txt".toList
      (aName 40)).1.files[5]? =
      some { name := aName 40 ++ "/readme.tx".toList ++ "Welcome to SimpleOS!".toList,
             content := "Welcome to SimpleOS!".toList, exists_ := true,
             isDirectory := false, permissions := 6 } ∧
    (readFile (copyFile (run initializeOS [Cmd.copy "docs".toList (aName 40)])
      "readme.txt".toList (aName 40)).1 (aName 40 ++ "/readme.txt".toList)).2 =
      Output.fileNotFound (aName 40 ++ "/readme.txt".toList) ∧
    (readFile (copyFile (run initializeOS [Cmd.copy "docs".toList (aName 40)])
      "readme.txt".toList (aName 40)).1 "readme.txt".toList).2 =
      Output.contentOf "readme.txt".toList "Welcome to SimpleOS!".toList := by
  refine ⟨reachable_run _, ?_, ?_, ?_, ?_⟩ <;> decide

/-- Claim C10, amended: for every state, source and destination for which the computed
destination name (`destination/source` if `destination` is a live directory, else
`destination`) has at most 49 characters, `copy(source, destination)` keeps every existing
slot, the current directory and the running flag as they are; it leaves the whole state
unchanged and does not print `Copied` whenever a live entry already has the computed
name; and when it prints `Copied source n`, `n` is that computed name, exactly one live
slot, called `n` and with the content, directory flag and permissions of the source
entry, is appended, the source is still found at its index, and `read(n)` and
`read(source)` print the same content. -/
theorem copy_frame_and_target (os : OSState) (source destination : Str)
    (hfit : (copyTargetName os.files source destination).length < MAX_FILENAME_LENGTH) :
    (os.files <+: (copyFile os source destination).1.files ∧
      (copyFile os source destination).1.currentDirectory = os.currentDirectory ∧
      (copyFile os source destination).1.running = os.running) ∧
    ((∃ f ∈ os.files, f.exists_ = true ∧
          f.name = copyTargetName os.files source destination) →
      (copyFile os source destination).1 = os ∧
      ∀ n, (copyFile os source destination).2 ≠ Output.copied source n) ∧
    (∀ n, (copyFile os source destination).2 = Output.copied source n →
      n = copyTargetName os.files source destination ∧
      ∃ i src, findLive os.files source = some (i, src) ∧
        (copyFile os source destination).1 =
          { os with files := os.files ++
              [{ name := n, content := src.content, exists_ := true,
                 isDirectory := src.isDirectory, permissions := src.permissions }] } ∧
        findLive (copyFile os source destination).1.files source = some (i, src) ∧
        (readFile (copyFile os source destination).1 n).2 = Output.contentOf n src.content ∧
        (readFile (copyFile os source destination).1 source).2 =
          Output.contentOf source src.content) := by
  rcases copyFile_cases os source destination with ⟨h1, h2⟩ | ⟨i, src, dd, hs, hd, _, hn, he⟩
  · refine ⟨⟨by rw [h1], by rw [h1], by rw [h1]⟩, fun _ => ⟨h1, h2⟩, fun n hn => ?_⟩
    exact absurd hn (h2 n)
  · have hname := newNameFor_eq_copyTargetName (s := source) hd
    have hcopy : copyOf src (newNameFor dd source destination) =
        { name := newNameFor dd source destination, content := src.content, exists_ := true,
          isDirectory := src.isDirectory, permissions := src.permissions } := by
      simp only [copyOf]
      rw [storedName_of_lt (by rw [hname]; exact hfit)]
    rw [hcopy] at he
    have hsrc := findLive_append_of_some
      { name := newNameFor dd source destination, content := src.content, exists_ := true,
        isDirectory := src.isDirectory, permissions := src.permissions } hs
    have hnew := findLive_append_of_none
      { name := newNameFor dd source destination, content := src.content, exists_ := true,
        isDirectory := src.isDirectory, permissions := src.permissions } hn
    simp only [and_self, if_true] at hnew
    refine ⟨?_, ?_, ?_⟩
    · rw [he]; exact ⟨List.prefix_append _ _, rfl, rfl⟩
    · rintro ⟨f, hf, hex, hfn⟩
      rw [← hname] at hfn
      exact absurd ⟨hex, hfn⟩ ((findLive_eq_none_iff _ _).1 hn f hf)
    · intro n hout
      rw [he] at hout
      simp only [Output.copied.injEq, true_and] at hout
      subst hout
      refine ⟨hname, i, src, hs, by rw [he], ?_, ?_, ?_⟩
      · rw [he]; exact hsrc
      · rw [he]; simp [readFile, hnew]
      · rw [he]; simp [readFile, hsrc]

/-- The amended claim C10 at `copy readme.txt docs` on the freshly initialised engine:
the copy is appended at `docs/readme.txt` and reads back the content of `readme.txt`;
repeating the copy, whose target is now occupied, changes nothing. -/
theorem copy_frame_and_target_witness :
    (copyFile initializeOS "readme.txt".toList "docs".toList).1 =
      { initializeOS with files := initializeOS.files ++
          [{ name := "docs/readme.txt".toList, content := "Welcome to SimpleOS!".toList,
             exists_ := true, isDirectory := false, permissions := 6 }] } ∧
    (readFile (copyFile initializeOS "readme.txt".toList "docs".toList).1
      "docs/readme.txt".toList).2 =
      Output.contentOf "docs/readme.txt".toList "Welcome to SimpleOS!".toList ∧
    (copyFile (copyFile initializeOS "readme.txt".toList "docs".toList).1
      "readme.txt".toList "docs".toList).1 =
      (copyFile initializeOS "readme.txt".toList "docs".toList).1 := by
  obtain ⟨_, i, src, hs, he, _, hr, _⟩ :=
    (copy_frame_and_target initializeOS "readme.txt".toList "docs".toList (by decide)).2.2
      "docs/readme.txt".toList (by decide)
  have hfound : findLive initializeOS.files "readme.txt".toList =
      some (1, { name := "readme.txt".toList, content := "Welcome to SimpleOS!".toList,
                 exists_ := true, isDirectory := false, permissions := 6 }) := by decide
  rw [hfound] at hs
  cases hs
  exact ⟨he, hr,
    ((copy_frame_and_target (copyFile initializeOS "readme.txt".toList "docs".toList).1
      "readme.txt".toList "docs".toList (by decide)).2.1 (by decide)).1⟩

/-! ## Slots, rows and permission strings -/

theorem modifyAt_getElem?_ne (g : File → File) (fs : List File) {i j : Nat} (h : j ≠ i) :
    (modifyAt g fs i)[j]? = fs[j]? := by
  induction fs generalizing i j with
  | nil => simp [modifyAt]
  | cons x fs ih =>
    cases i with
    | zero =>
      cases j with
      | zero => exact absurd rfl h
      | succ j => simp [modifyAt]
    | succ i =>
      cases j with
      | zero => simp [modifyAt]
      | succ j =>
        simp only [modifyAt, List.getElem?_cons_succ]
        exact ih (fun hji => h (by rw [hji]))

theorem modifyAt_getElem?_eq (g : File → File) {fs : List File} {i : Nat} {f : File}
    (h : fs[i]? = some f) : (modifyAt g fs i)[i]? = some (g f) := by
  induction fs generalizing i with
  | nil => simp at h
  | cons x fs ih =>
    cases i with
    | zero =>
      simp only [List.getElem?_cons_zero, Option.some.injEq] at h
      simp [modifyAt, h]
    | succ i =>
      simp only [List.getElem?_cons_succ] at h
      simp only [modifyAt, List.getElem?_cons_succ]
      exact ih h

theorem mem_listRows (cwd : Str) {fs : List File} {f : File} (hf : f ∈ fs)
    (he : f.exists_ = true) (hs : listSkips cwd f.name = false) :
    ({ permStr := permStr f.permissions, dirTag := f.isDirectory,
       displayName := displayName f.name } : ListRow) ∈ listRows cwd fs := by
  induction fs with
  | nil => simp at hf
  | cons x fs ih =>
    rcases List.mem_cons.1 hf with rfl | h
    · simp [listRows, he, hs]
    · by_cases hx : x.exists_ = true ∧ listSkips cwd x.name = false
      · rw [listRows, if_pos hx]
        exact List.mem_cons_of_mem _ (ih h)
      · rw [listRows, if_neg hx]
        exact ih h

theorem permStr_bits (N : Int) (h0 : 0 ≤ N) (h7 : N ≤ 7) :
    permStr N =
      [ if N / 4 % 2 = 1 then 'r' else '-',
        if N / 2 % 2 = 1 then 'w' else '-',
        if N % 2 = 1 then 'x' else '-' ] := by
  interval_cases N <;> decide

/-! ## C11: chmod with an invalid value -/

/-- Claim C11 (invalid chmod is rejected atomically): for every state, every path `P` with a
live entry and every integer `N` outside 0..7, `chmod(P, N)` prints
`Invalid permissions: N (must be 0-7)` and returns the state unchanged, so no entry
changes its permissions. -/
theorem chmod_invalid_rejected (os : OSState) (P : Str) (N : Int)
    (hP : ∃ f ∈ os.files, f.exists_ = true ∧ f.name = P) (hN : N < 0 ∨ N > 7) :
    setPermissions os P N = (os, Output.invalidPermissions N) := by
  obtain ⟨f, hf, he, hn⟩ := hP
  obtain ⟨⟨i, f0⟩, hr⟩ := findLive_isSome_of_mem hf he hn
  simp [setPermissions, hr, hN]

/-- Claim C11 at `readme.txt` on the freshly initialised engine, with the values 8 and -1. -/
theorem chmod_invalid_rejected_witness :
    setPermissions initializeOS "readme.txt".toList 8 =
        (initializeOS, Output.invalidPermissions 8) ∧
    setPermissions initializeOS "readme.txt".toList (-1) =
        (initializeOS, Output.invalidPermissions (-1)) :=
  ⟨chmod_invalid_rejected initializeOS "readme.txt".toList 8 (by decide) (by decide),
   chmod_invalid_rejected initializeOS "readme.txt".toList (-1) (by decide) (by decide)⟩

/-! ## C12: chmod with a valid value -/

/-- Claim C12 (valid chmod and its rendering): for every state, every path `P` with a live
entry and every `N` in 0..7, `chmod(P, N)` prints `Changed permissions of P to N`; the slot
`i` found for `P` gets permissions `N` and keeps its other fields, every other slot, the
number of slots, the current directory and the running flag are unchanged, and `P` is
still found at `i`.  The row that `list()` prints for that entry (when the listing filter
shows it) carries the permission string of `N`, which has `r` in position 0 iff the bit of
value 4 of `N` is set, `w` in position 1 iff the bit of value 2 is set, `x` in position 2
iff the bit of value 1 is set, and `-` elsewhere. -/
theorem chmod_valid_sets_and_renders (os : OSState) (P : Str) (N : Int)
    (hP : ∃ f ∈ os.files, f.exists_ = true ∧ f.name = P) (h0 : 0 ≤ N) (h7 : N ≤ 7) :
    ∃ i f, findLive os.files P = some (i, f) ∧
      setPermissions os P N =
        ({ os with files := modifyAt (fun e => { e with permissions := N }) os.files i },
          Output.changedPermissions P N) ∧
      (setPermissions os P N).1.files.length = os.files.length ∧
      (setPermissions os P N).1.files[i]? = some { f with permissions := N } ∧
      (∀ j, j ≠ i → (setPermissions os P N).1.files[j]? = os.files[j]?) ∧
      findLive (setPermissions os P N).1.files P = some (i, { f with permissions := N }) ∧
      (listSkips os.currentDirectory P = false →
        ({ permStr := permStr N, dirTag := f.isDirectory, displayName := displayName P } :
          ListRow) ∈ listRows (setPermissions os P N).1.currentDirectory
            (setPermissions os P N).1.files) ∧
      permStr N =
        [ if N / 4 % 2 = 1 then 'r' else '-',
          if N / 2 % 2 = 1 then 'w' else '-',
          if N % 2 = 1 then 'x' else '-' ] := by
  obtain ⟨f1, hf1, he1, hn1⟩ := hP
  obtain ⟨⟨i, f⟩, hr⟩ := findLive_isSome_of_mem hf1 he1 hn1
  obtain ⟨hget, hex, hname⟩ := findLive_some_spec hr
  have hN : ¬(N < 0 ∨ N > 7) := by omega
  have heq : setPermissions os P N =
      ({ os with files := modifyAt (fun e => { e with permissions := N }) os.files i },
        Output.changedPermissions P N) := by
    simp [setPermissions, hr, hN]
  have hnew := modifyAt_getElem?_eq (fun e => { e with permissions := N }) hget
  refine ⟨i, f, hr, heq, ?_, ?_, ?_, ?_, ?_, permStr_bits N h0 h7⟩
  · rw [heq]; exact modifyAt_length _ _ _
  · rw [heq]; exact hnew
  · intro j hj
    rw [heq]; exact modifyAt_getElem?_ne _ _ hj
  · rw [heq]
    exact findLive_modifyAt_same (g := fun e => { e with permissions := N })
      (fun _ => ⟨rfl, rfl⟩) hr
  · intro hs
    rw [heq]
    have hmem := List.getElem?_mem hnew
    have := mem_listRows os.currentDirectory hmem hex (by simpa [hname] using hs)
    simpa [hname] using this


/-- Claim C12 at `chmod readme.txt 5` on the freshly initialised engine: slot 1 is
assigned and the permission string of 5 is `r-x`. -/
theorem chmod_valid_sets_and_renders_witness :
    setPermissions initializeOS "readme.txt".toList 5 =
      ({ files := modifyAt (fun e => { e with permissions := 5 }) initializeOS.files 1,
         running := true, currentDirectory := "/".toList },
        Output.changedPermissions "readme.txt".toList 5) ∧
    permStr 5 = "r-x".toList := by
  obtain ⟨i, f, hr, heq, _, _, _, _, _, hp⟩ :=
    chmod_valid_sets_and_renders initializeOS "readme.txt".toList 5 (by decide) (by decide)
      (by decide)
  have hfound : findLive initializeOS.files "readme.txt".toList =
      some (1, { name := "readme.txt".toList, content := "Welcome to SimpleOS!".toList,
                 exists_ := true, isDirectory := false, permissions := 6 }) := by decide
  rw [hfound] at hr
  cases hr
  exact ⟨heq, by rw [hp]; decide⟩

theorem strrchr_eq_none_iff (s : Str) (c : Char) : strrchr s c = none ↔ c ∉ s := by
  induction s with
  | nil => simp [strrchr]
  | cons x xs ih =>
    cases h : strrchr xs c with
    | some i =>
      have : c ∈ xs := by
        by_contra hc
        rw [ih.2 hc] at h
        exact Option.noConfusion h
      simp [strrchr, h, this]
    | none =>
      have hc := ih.1 h
      by_cases hx : x = c
      · simp [strrchr, h, hx]
      · simp [strrchr, h, hx, hc, Ne.symm hx]

theorem strrchr_append_of_not_mem (p rest : Str) (c : Char) (h : c ∉ rest) :
    strrchr (p ++ c :: rest) c = some p.length := by
  induction p with
  | nil => simp [strrchr, (strrchr_eq_none_iff rest c).2 h]
  | cons x p ih => simp [strrchr, ih]

theorem listRows_append (cwd : Str) (fs : List File) (e : File) :
    listRows cwd (fs ++ [e]) =
      listRows cwd fs ++
        (if e.exists_ = true ∧ listSkips cwd e.name = false then
          [{ permStr := permStr e.permissions, dirTag := e.isDirectory,
             displayName := displayName e.name }]
         else []) := by
  induction fs with
  | nil =>
    by_cases he : e.exists_ = true ∧ listSkips cwd e.name = false
    · simp [listRows, he]
    · simp [listRows, he]
  | cons x fs ih =>
    by_cases hx : x.exists_ = true ∧ listSkips cwd x.name = false
    · rw [List.cons_append, listRows, if_pos hx, ih, listRows, if_pos hx, List.cons_append]
    · rw [List.cons_append, listRows, if_neg hx, ih, listRows, if_neg hx]

theorem listSkips_root_of_no_slash {name : Str} (h : '/' ∉ name) :
    listSkips "/".toList name = false := by
  simp [listSkips, (strrchr_eq_none_iff name '/').2 h]

/-- In a directory other than the root, an entry is listed exactly when it is a direct
child of the current directory. -/
theorem listSkips_non_root_iff {d : Str} (hd : d ≠ "/".toList) (name : Str) :
    listSkips d name = false ↔ isDirectChildOf name d := by
  have hlen : (d ++ "/".toList).length = d.length + 1 := by simp
  have hpre := strncmpEq_length_iff name (d ++ "/".toList)
  rw [hlen] at hpre
  simp only [listSkips, hd, if_false, isDirectChildOf, Bool.or_eq_false_iff,
    Bool.not_eq_false', strchrFound, decide_eq_false_iff_not, hlen, hpre]

theorem displayName_of_isDirectChildOf {d name : Str} (h : isDirectChildOf name d) :
    displayName name = name.drop (d.length + 1) := by
  obtain ⟨⟨t, ht⟩, hno⟩ := h
  subst ht
  have hdrop : List.drop (d.length + 1) (d ++ "/".toList ++ t) = t := by
    have : (d ++ "/".toList).length = d.length + 1 := by simp
    rw [← this, List.drop_left]
  rw [hdrop] at hno ⊢
  have := strrchr_append_of_not_mem d t '/' hno
  have heq : d ++ "/".toList ++ t = d ++ '/' :: t := by simp
  rw [heq] at hdrop ⊢
  simp [displayName, this, hdrop]


/-! ## C13: the fresh listing -/

/-- Claim C13 (fresh listing) fails as stated: on the freshly initialised engine `list()`
does not print exactly the three rows `readme.txt`, `sample.txt` and `[DIR] docs`. -/
theorem fresh_listing_is_not_three_rows :
    (listFiles initializeOS).2 ≠
      Output.listing "/".toList
        [ { permStr := "rw-".toList, dirTag := false, displayName := "readme.txt".toList },
          { permStr := "rw-".toList, dirTag := false, displayName := "sample.txt".toList },
          { permStr := "rwx".toList, dirTag := true, displayName := "docs".toList } ] := by
  decide

/-- Claim C13, amended: on the freshly initialised engine (current directory `/`), `list()`
shows exactly four rows, in this order: the root directory itself (`rwx`, tagged `[DIR]`,
with an empty displayed name), the file `readme.txt` (`rw-`), the file `sample.txt` (`rw-`)
and the directory `docs` (`rwx`, tagged `[DIR]`); the state is unchanged.  The root
branch of `listFiles` skips a name that starts with its only `/` just when the name is
longer than one character, which exempts `/` itself. -/
theorem fresh_listing_four_rows :
    listFiles initializeOS =
      (initializeOS,
        Output.listing "/".toList
          [ { permStr := "rwx".toList, dirTag := true, displayName := [] },
            { permStr := "rw-".toList, dirTag := false, displayName := "readme.txt".toList },
            { permStr := "rw-".toList, dirTag := false, displayName := "sample.txt".toList },
            { permStr := "rwx".toList, dirTag := true, displayName := "docs".toList } ]) := by
  decide

/-! ## C14: create ignores the current directory -/

theorem strrchr_eq_zero_iff (s : Str) (c : Char) :
    strrchr s c = some 0 ↔ ∃ rest, s = c :: rest ∧ c ∉ rest := by
  cases s with
  | nil => simp [strrchr]
  | cons x xs =>
    cases h : strrchr xs c with
    | some i =>
      have hc : c ∈ xs := by
        by_contra hc
        rw [(strrchr_eq_none_iff xs c).2 hc] at h
        exact Option.noConfusion h
      simp only [strrchr, h, Option.some.injEq, Nat.add_one_ne_zero, List.cons.injEq,
        false_iff, not_exists, not_and, not_not]
      rintro rest ⟨_, rfl⟩
      exact hc
    | none =>
      have hc := (strrchr_eq_none_iff xs c).1 h
      by_cases hx : x = c
      · subst hx
        simp [strrchr, h, hc]
      · simp [strrchr, h, hx]

/-- What the root branch of `listFiles` skips: exactly the names made of one `/` followed by
a non-empty segment without `/`. -/
theorem listSkips_root_iff (name : Str) :
    listSkips "/".toList name = true ↔
      ∃ rest, name = '/' :: rest ∧ rest ≠ [] ∧ '/' ∉ rest := by
  simp only [listSkips, if_true, decide_eq_true_eq, strrchr_eq_zero_iff]
  constructor
  · rintro ⟨⟨rest, rfl, hno⟩, hlen⟩
    refine ⟨rest, rfl, ?_, hno⟩
    rintro rfl
    simp at hlen
  · rintro ⟨rest, rfl, hne, hno⟩
    refine ⟨⟨rest, rfl, hno⟩, ?_⟩
    cases rest with
    | nil => exact absurd rfl hne
    | cons y ys => simp

/-! ## C15: the root listing filter -/

/-- Claim C15 (root listing filter), evaluated at two failing inputs.  After `mkdir foo` on
the freshly initialised engine the entry `/foo` is live and has no `/` past position 0,
yet `list()` from `/` does not show it; after `copy readme.txt docs` the entry
`docs/readme.txt`, which has a `/` past position 0, is shown (as `readme.txt`).  The root
branch of `listFiles` is commented `Show only files directly in root, not in
subdirectories`, but skips exactly the names made of one leading `/` and one segment. -/
theorem root_listing_hides_root_children :
    findLive (run initializeOS [Cmd.mkdir "foo".toList]).files "/foo".toList =
      some (4, { name := "/foo".toList, content := [], exists_ := true, isDirectory := true,
                 permissions := 7 }) ∧
    (listFiles (run initializeOS [Cmd.mkdir "foo".toList])).2 =
      Output.listing "/".toList
        [ { permStr := "rwx".toList, dirTag := true, displayName := [] },
          { permStr := "rw-".toList, dirTag := false, displayName := "readme.txt".toList },
          { permStr := "rw-".toList, dirTag := false, displayName := "sample.txt".toList },
          { permStr := "rwx".toList, dirTag := true, displayName := "docs".toList } ] ∧
    (listFiles (run initializeOS [Cmd.copy "readme.txt".toList "docs".toList])).2 =
      Output.listing "/".toList
        [ { permStr := "rwx".toList, dirTag := true, displayName := [] },
          { permStr := "rw-".toList, dirTag := false, displayName := "readme.txt".toList },
          { permStr := "rw-".toList, dirTag := false, displayName := "sample.txt".toList },
          { permStr := "rwx".toList, dirTag := true, displayName := "docs".toList },
          { permStr := "rw-".toList, dirTag := false,
            displayName := "readme.txt".toList } ] := by
  refine ⟨?_, ?_, ?_⟩ <;> decide

theorem listRows_non_root {d : Str} (hd : d ≠ "/".toList) (fs : List File) :
    listRows d fs =
      (fs.filter (fun f => decide (f.exists_ = true ∧ isDirectChildOf f.name d))).map
        (fun f => { permStr := permStr f.permissions, dirTag := f.isDirectory,
                    displayName := f.name.drop (d.length + 1) }) := by
  induction fs with
  | nil => rfl
  | cons x fs ih =>
    by_cases hx : x.exists_ = true ∧ listSkips d x.name = false
    · have hc := (listSkips_non_root_iff hd x.name).1 hx.2
      have hp : x.exists_ = true ∧ isDirectChildOf x.name d := ⟨hx.1, hc⟩
      rw [listRows, if_pos hx, ih, List.filter_cons_of_pos (by simpa using hp), List.map_cons,
        displayName_of_isDirectChildOf hc]
    · have hp : ¬(x.exists_ = true ∧ isDirectChildOf x.name d) := fun hp =>
        hx ⟨hp.1, (listSkips_non_root_iff hd x.name).2 hp.2⟩
      rw [listRows, if_neg hx, ih, List.filter_cons_of_neg (by simpa using hp)]

/-! ## C16: the listing filter away from the root -/

/-- The table after one operation: the old table, possibly with one assignment at an index
returned by the search loop (so at a live slot), possibly followed by one appended slot,
which needs a free slot. -/
theorem step_files_shape (os : OSState) (c : Cmd) :
    ∃ mid tail : List File, (step os c).1.files = mid ++ tail ∧
      (mid = os.files ∨
        ∃ (g : File → File) (i : Nat) (n : Str) (f0 : File),
          findLive os.files n = some (i, f0) ∧ mid = modifyAt g os.files i) ∧
      (tail = [] ∨ ((∃ e, tail = [e]) ∧ os.fileCount < MAX_FILES)) := by
  have same : ∀ fs : List File, fs = os.files →
      ∃ mid tail : List File, fs = mid ++ tail ∧
        (mid = os.files ∨
          ∃ (g : File → File) (i : Nat) (n : Str) (f0 : File),
            findLive os.files n = some (i, f0) ∧ mid = modifyAt g os.files i) ∧
        (tail = [] ∨ ((∃ e, tail = [e]) ∧ os.fileCount < MAX_FILES)) :=
    fun fs h => ⟨os.files, [], by simp [h], Or.inl rfl, Or.inl rfl⟩
  have assigned : ∀ (g : File → File) (i : Nat) (n : Str) (f0 : File),
      findLive os.files n = some (i, f0) →
      ∃ mid tail : List File, modifyAt g os.files i = mid ++ tail ∧
        (mid = os.files ∨
          ∃ (g : File → File) (i : Nat) (n : Str) (f0 : File),
            findLive os.files n = some (i, f0) ∧ mid = modifyAt g os.files i) ∧
        (tail = [] ∨ ((∃ e, tail = [e]) ∧ os.fileCount < MAX_FILES)) :=
    fun g i n f0 h =>
      ⟨modifyAt g os.files i, [], by simp, Or.inr ⟨g, i, n, f0, h, rfl⟩, Or.inl rfl⟩
  have appended : ∀ e : File, os.fileCount < MAX_FILES →
      ∃ mid tail : List File, os.files ++ [e] = mid ++ tail ∧
        (mid = os.files ∨
          ∃ (g : File → File) (i : Nat) (n : Str) (f0 : File),
            findLive os.files n = some (i, f0) ∧ mid = modifyAt g os.files i) ∧
        (tail = [] ∨ ((∃ e, tail = [e]) ∧ os.fileCount < MAX_FILES)) :=
    fun e h => ⟨os.files, [e], rfl, Or.inl rfl, Or.inr ⟨⟨e, rfl⟩, h⟩⟩
  cases c with
  | list => exact same _ rfl
  | move s d =>
    simp only [step, moveFile]
    cases h1 : findLive os.files s with
    | none => exact same _ rfl
    | some r =>
      obtain ⟨i, f0⟩ := r
      cases h2 : findDestDir os.files d with
      | none => exact same _ rfl
      | some dd =>
        by_cases hc : os.fileCount ≥ MAX_FILES
        · simp only [hc, if_true]; exact same _ rfl
        · simp only [hc, if_false]
          refine ⟨modifyAt (fun f => { f with exists_ := false }) os.files i,
            [copyOf f0 (newNameFor dd s d)], ?_,
            Or.inr ⟨fun f => { f with exists_ := false }, i, s, f0, h1, rfl⟩,
            Or.inr ⟨⟨_, rfl⟩, by omega⟩⟩
          exact modifyAt_append_of_lt _ _ (findLive_lt_length h1)
  | rename o n =>
    simp only [step, renameFile]
    cases h1 : findLive os.files o with
    | none => exact same _ rfl
    | some r => exact assigned _ r.1 o r.2 h1
  | delete f =>
    simp only [step, deleteFile]
    cases h1 : findLive os.files f with
    | none => exact same _ rfl
    | some r => exact assigned _ r.1 f r.2 h1
  | rmdir d =>
    simp only [step, removeDirectory]
    cases h1 : findLive os.files (fullPath os.currentDirectory d) with
    | none => exact same _ rfl
    | some r =>
      obtain ⟨i, f0⟩ := r
      by_cases hd : f0.isDirectory = true
      · by_cases he : isDirectoryEmpty os (fullPath os.currentDirectory d) = true
        · simp only [hd, he, if_true]; exact assigned _ i _ f0 h1
        · simp only [hd, he, if_true, if_false]; exact same _ rfl
      · simp only [hd, if_false]; exact same _ rfl
  | create f =>
    simp only [step, createFile]
    by_cases hc : os.fileCount ≥ MAX_FILES
    · simp only [hc, if_true]; exact same _ rfl
    · simp only [hc, if_false]
      cases h1 : findLive os.files f with
      | none => exact appended _ (by omega)
      | some r => exact same _ rfl
  | write f c =>
    simp only [step, writeToFile]
    cases h1 : findLive os.files f with
    | none => exact same _ rfl
    | some r => exact assigned _ r.1 f r.2 h1
  | read f =>
    simp only [step, readFile]
    cases h1 : findLive os.files f with
    | none => exact same _ rfl
    | some r => exact same _ rfl
  | mkdir d =>
    simp only [step, makeDirectory]
    by_cases hc : os.fileCount ≥ MAX_FILES
    · simp only [hc, if_true]; exact same _ rfl
    · simp only [hc, if_false]
      cases h1 : findLive os.files (fullPath os.currentDirectory d) with
      | none => exact appended _ (by omega)
      | some r => exact same _ rfl
  | cd d => exact same _ (changeDirectory_files os d)
  | chmod f p =>
    simp only [step, setPermissions]
    cases h1 : findLive os.files f with
    | none => exact same _ rfl
    | some r =>
      by_cases hp : p < 0 ∨ p > 7
      · simp only [hp, if_true]; exact same _ rfl
      · simp only [hp, if_false]; exact assigned _ r.1 f r.2 h1
  | copy s d =>
    rcases copyFile_cases os s d with ⟨h1, _⟩ | ⟨i, src, dd, _, _, hc, _, he⟩
    · simp only [step, h1]; exact same _ rfl
    · simp only [step, he]; exact appended _ hc

theorem fileCount_step_le {os : OSState} (c : Cmd) (h : os.fileCount ≤ MAX_FILES) :
    (step os c).1.fileCount ≤ MAX_FILES := by
  obtain ⟨mid, tail, hfiles, hmid, htail⟩ := step_files_shape os c
  have hlen : mid.length = os.files.length := by
    rcases hmid with rfl | ⟨g, i, n, f0, _, rfl⟩
    · rfl
    · exact modifyAt_length _ _ _
  simp only [OSState.fileCount, hfiles, List.length_append, hlen] at h ⊢
  rcases htail with rfl | ⟨⟨e, rfl⟩, hc⟩
  · simpa using h
  · simp only [OSState.fileCount] at hc
    simp only [List.length_singleton]
    omega

theorem fileCount_run_le {os : OSState} (cs : List Cmd) (h : os.fileCount ≤ MAX_FILES) :
    (run os cs).fileCount ≤ MAX_FILES := by
  induction cs generalizing os with
  | nil => exact h
  | cons c cs ih => exact ih (fileCount_step_le c h)

/-! ## C17: bounded capacity -/

/-- Claim C17 (bounded capacity, non-fatal exhaustion): in every state reachable from the
freshly initialised engine at most 100 slots are used, and when exactly 100 are used
`create` and `mkdir` print their capacity message and `move` and `copy` do not print
`Moved` or `Copied`, each of the four returning the state unchanged (so the source of a
move stays live and nothing is inserted). -/
theorem capacity_bounded (os : OSState) (h : Reachable os) :
    os.fileCount ≤ 100 ∧
    (os.fileCount = 100 →
      (∀ f, createFile os f = (os, Output.createTableFull)) ∧
      (∀ d, makeDirectory os d = (os, Output.mkdirTableFull)) ∧
      (∀ s d, (moveFile os s d).1 = os ∧ ∀ n, (moveFile os s d).2 ≠ Output.moved s n) ∧
      (∀ s d, (copyFile os s d).1 = os ∧ ∀ n, (copyFile os s d).2 ≠ Output.copied s n)) := by
  obtain ⟨cs, rfl⟩ := h
  refine ⟨fileCount_run_le cs (by decide), fun hfull => ?_⟩
  generalize run initializeOS cs = os at hfull
  have hc : os.fileCount ≥ MAX_FILES := by rw [hfull]; decide
  refine ⟨fun f => by simp [createFile, hc], fun d => by simp [makeDirectory, hc],
    fun s d => ?_, fun s d => ?_⟩
  · cases h1 : findLive os.files s with
    | none => simp [moveFile, h1]
    | some r =>
      cases h2 : findDestDir os.files d with
      | none => simp [moveFile, h1, h2]
      | some dd => simp [moveFile, h1, h2, hc]
  · rcases copyFile_cases os s d with h1 | ⟨i, src, dd, _, _, hlt, _, _⟩
    · exact h1
    · omega

/-- Claim C17 at the reachable state with 100 used slots obtained by 96 rounds of
`create x`, `delete x`. -/
theorem capacity_bounded_witness :
    (run initializeOS (churn "x".toList 96)).fileCount ≤ 100 ∧
    createFile (run initializeOS (churn "x".toList 96)) "y".toList =
      (run initializeOS (churn "x".toList 96), Output.createTableFull) ∧
    (moveFile (run initializeOS (churn "x".toList 96)) "readme.txt".toList
      "docs".toList).1 = run initializeOS (churn "x".toList 96) :=
  ⟨(capacity_bounded _ (reachable_run _)).1,
   ((capacity_bounded _ (reachable_run _)).2 (by decide)).1 _,
   (((capacity_bounded _ (reachable_run _)).2 (by decide)).2.2.1 _ _).1⟩

/-! ## C18: dead rows -/

/-- Claim C18 (dead rows are inert and never reclaimed): for every state and every engine
operation, the number of used slots after the operation is at least the number before,
and every slot that was not live before the operation holds exactly the same entry
after it. -/
theorem dead_slots_inert (os : OSState) (c : Cmd) :
    os.fileCount ≤ (step os c).1.fileCount ∧
    ∀ (j : Nat) (f : File), os.files[j]? = some f → f.exists_ = false →
      (step os c).1.files[j]? = some f := by
  obtain ⟨mid, tail, hfiles, hmid, _⟩ := step_files_shape os c
  have hlen : mid.length = os.files.length := by
    rcases hmid with rfl | ⟨g, i, n, f0, _, rfl⟩
    · rfl
    · exact modifyAt_length _ _ _
  refine ⟨?_, fun j f hj hdead => ?_⟩
  · simp only [OSState.fileCount, hfiles, List.length_append, hlen]
    omega
  · have hjlt : j < mid.length := by
      rw [hlen]
      by_contra hge
      rw [List.getElem?_eq_none (by omega)] at hj
      exact Option.noConfusion hj
    rw [hfiles, List.getElem?_append_left hjlt]
    rcases hmid with rfl | ⟨g, i, n, f0, hfind, rfl⟩
    · exact hj
    · have hi := findLive_some_spec hfind
      have hne : j ≠ i := by
        rintro rfl
        rw [hi.1] at hj
        cases hj
        rw [hi.2.1] at hdead
        exact Bool.noConfusion hdead
      rw [modifyAt_getElem?_ne _ _ hne]
      exact hj

/-- Claim C18 at `delete readme.txt` followed by `create readme.txt`: slot 1 still holds
the deleted entry. -/
theorem dead_slots_inert_witness :
    (step (run initializeOS [Cmd.delete "readme.txt".toList])
      (Cmd.create "readme.txt".toList)).1.files[1]? =
      some { name := "readme.txt".toList, content := "Welcome to SimpleOS!".toList,
             exists_ := false, isDirectory := false, permissions := 6 } :=
  (dead_slots_inert (run initializeOS [Cmd.delete "readme.txt".toList])
    (Cmd.create "readme.txt".toList)).2 1 _ (by decide) (by decide)


/-! ## C19: the current directory after cd -/

/-- Claim C19 (the current directory names a live directory when entered) fails as stated,
at its own example: on the freshly initialised engine `cd docs` succeeds and sets the
current directory to `/docs`, and no live directory entry has the path `/docs` (the entry
found is called `docs`). -/
theorem cd_docs_enters_unlisted_path :
    Reachable initializeOS ∧
    (changeDirectory initializeOS "docs".toList).2 = Output.silent ∧
    (changeDirectory initializeOS "docs".toList).1.currentDirectory = "/docs".toList ∧
    ¬ ∃ f ∈ (changeDirectory initializeOS "docs".toList).1.files,
        f.exists_ = true ∧ f.isDirectory = true ∧
        f.name = (changeDirectory initializeOS "docs".toList).1.currentDirectory := by
  refine ⟨reachable_run [], ?_, ?_, ?_⟩ <;> decide

/-- A `cd` to a name other than `/` and `..` that prints nothing found a live directory
called by that name, and only replaces the current directory: by `/` and the name at the
root, by the outcome of the overlapping `sprintf` elsewhere. -/
theorem changeDirectoryWith_eq_of_silent {ov : Str → Str → Str} {os : OSState} {name : Str}
    (h1 : name ≠ "/".toList) (h2 : name ≠ "..".toList)
    (h : (changeDirectoryWith ov os name).2 = Output.silent) :
    (∃ i d, findLive os.files name = some (i, d) ∧ d.isDirectory = true) ∧
    changeDirectoryWith ov os name =
      ({ os with currentDirectory :=
          if os.currentDirectory = "/".toList then "/".toList ++ name
          else ov os.currentDirectory name }, Output.silent) := by
  unfold changeDirectoryWith at h ⊢
  rw [if_neg h1, if_neg h2] at h ⊢
  cases hf : findLive os.files name with
  | none => rw [hf] at h; exact Output.noConfusion h
  | some r =>
    obtain ⟨i, d⟩ := r
    rw [hf] at h
    by_cases hd : d.isDirectory = true
    · refine ⟨⟨i, d, rfl, hd⟩, ?_⟩
      by_cases hc : os.currentDirectory = "/".toList
      · simp only [hd, if_true, hc]
      · simp only [hd, if_true, hc, if_false]
    · simp only [hd, if_false] at h
      exact Output.noConfusion h

/-- Claim C19, amended: for every state and every name other than `/` and `..`, if
`cd(name)` succeeds (prints nothing) then `name` itself is the path of a live directory
entry, the one the lookup finds, and neither the table nor the running flag changes; when
the old current directory is `/` and `name` has at most 48 characters, the new current
directory is `/` followed by `name`.  Away from the root the new value is whatever the
`sprintf` whose destination is also its argument leaves, and nothing is said about it:
the statement holds for every outcome `selfSprintf` of that call. -/
theorem cd_enters_named_directory (selfSprintf : Str → Str → Str) (os : OSState)
    (name : Str) (h1 : name ≠ "/".toList) (h2 : name ≠ "..".toList)
    (h : (changeDirectoryWith selfSprintf os name).2 = Output.silent) :
    (∃ i d, findLive os.files name = some (i, d) ∧ d.isDirectory = true) ∧
    (changeDirectoryWith selfSprintf os name).1.files = os.files ∧
    (changeDirectoryWith selfSprintf os name).1.running = os.running ∧
    (os.currentDirectory = "/".toList → name.length + 1 < MAX_FILENAME_LENGTH →
      (changeDirectoryWith selfSprintf os name).1.currentDirectory =
        "/".toList ++ name) := by
  obtain ⟨hfound, heq⟩ := changeDirectoryWith_eq_of_silent h1 h2 h
  rw [heq]
  refine ⟨hfound, rfl, rfl, fun hroot _ => ?_⟩
  simp only [hroot, if_true]

/-- The amended claim C19 at `cd docs` on the freshly initialised engine: `docs` is a live
directory, the table is unchanged, and the current directory becomes `/docs`. -/
theorem cd_enters_named_directory_witness :
    (∃ i d, findLive initializeOS.files "docs".toList = some (i, d) ∧ d.isDirectory = true) ∧
    (changeDirectory initializeOS "docs".toList).1.files = initializeOS.files ∧
    (changeDirectory initializeOS "docs".toList).1.currentDirectory = "/docs".toList :=
  ⟨(cd_enters_named_directory plainSelfSprintf initializeOS "docs".toList (by decide)
      (by decide) (by decide)).1,
   (cd_enters_named_directory plainSelfSprintf initializeOS "docs".toList (by decide)
      (by decide) (by decide)).2.1,
   (cd_enters_named_directory plainSelfSprintf initializeOS "docs".toList (by decide)
      (by decide) (by decide)).2.2.2 (by decide) (by decide)⟩

/-! ## C20: content of directories -/

/-- Claim C20 (directories never carry content) fails as stated: on the freshly initialised
engine `write docs` with content `hello` prints `Content written to docs` and leaves the
live directory `docs` (slot 3) with the content `hello`. -/
theorem write_gives_directory_content :
    Reachable (run initializeOS [Cmd.write "docs".toList "hello".toList]) ∧
    (step initializeOS (Cmd.write "docs".toList "hello".toList)).2 =
      Output.contentWritten "docs".toList ∧
    (run initializeOS [Cmd.write "docs".toList "hello".toList]).files[3]? =
      some { name := "docs".toList, content := "hello".toList, exists_ := true,
             isDirectory := true, permissions := 7 } ∧
    ¬ DirectoriesEmpty (run initializeOS [Cmd.write "docs".toList "hello".toList]) := by
  refine ⟨reachable_run _, ?_, ?_, ?_⟩ <;> decide

theorem forall_mem_modifyAt {P : File → Prop} {g : File → File} {fs : List File} {i : Nat}
    (h : ∀ f ∈ fs, P f) (hg : ∀ f, fs[i]? = some f → P (g f)) :
    ∀ f ∈ modifyAt g fs i, P f := by
  induction fs generalizing i with
  | nil => simp [modifyAt]
  | cons x fs ih =>
    cases i with
    | zero =>
      intro f hf
      simp only [modifyAt, List.mem_cons] at hf
      rcases hf with rfl | hf
      · exact hg x (by simp)
      · exact h f (List.mem_cons_of_mem _ hf)
    | succ i =>
      intro f hf
      simp only [modifyAt, List.mem_cons] at hf
      rcases hf with rfl | hf
      · exact h _ (List.mem_cons_self _ _)
      · exact ih (fun f hf => h f (List.mem_cons_of_mem _ hf))
          (fun f hfi => hg f (by simpa using hfi)) f hf

/-- One operation that is not a `write` to a directory and stays within the arrays of the
program keeps every directory entry, live or not, without content. -/
theorem dirs_empty_step {os : OSState} (c : Cmd)
    (hinv : ∀ f ∈ os.files, f.isDirectory = true → f.content = [])
    (hw : writesToDirectory os c = false) (hfit : fitsBuffers os c = true) :
    ∀ f ∈ (step os c).1.files, f.isDirectory = true → f.content = [] := by
  have keep : ∀ (g : File → File) (i : Nat),
      (∀ f, (g f).isDirectory = f.isDirectory ∧ (g f).content = f.content) →
      ∀ fs : List File, (∀ f ∈ fs, f.isDirectory = true → f.content = []) →
      ∀ f ∈ modifyAt g fs i, f.isDirectory = true → f.content = [] := by
    intro g i hg fs hfs
    refine forall_mem_modifyAt hfs (fun f hf hdir => ?_)
    rw [(hg f).2]
    exact hfs f (List.getElem?_mem hf) ((hg f).1 ▸ hdir)
  have app : ∀ e : File, (e.isDirectory = true → e.content = []) →
      ∀ f ∈ os.files ++ [e], f.isDirectory = true → f.content = [] := by
    intro e he f hf
    rcases List.mem_append.1 hf with h | h
    · exact hinv f h
    · rw [List.mem_singleton] at h
      subst h
      exact he
  cases c with
  | list => exact hinv
  | move s d =>
    simp only [step, moveFile]
    cases h1 : findLive os.files s with
    | none => exact hinv
    | some r =>
      obtain ⟨i, f0⟩ := r
      cases h2 : findDestDir os.files d with
      | none => exact hinv
      | some dd =>
        by_cases hc : os.fileCount ≥ MAX_FILES
        · simpa [hc] using hinv
        · simp only [hc, if_false]
          have hsrc := List.getElem?_mem (findLive_some_spec h1).1
          refine keep _ i ?_ _ (app (copyOf f0 (newNameFor dd s d)) (hinv f0 hsrc))
          exact fun _ => ⟨rfl, rfl⟩
  | rename o n =>
    simp only [step, renameFile]
    cases h1 : findLive os.files o with
    | none => exact hinv
    | some r =>
      simp only [fitsBuffers, decide_eq_true_eq] at hfit
      refine keep _ r.1 ?_ _ hinv
      intro x
      simp [strcpyName, hfit.2]
  | delete f =>
    simp only [step, deleteFile]
    cases h1 : findLive os.files f with
    | none => exact hinv
    | some r => refine keep _ r.1 ?_ _ hinv; exact fun _ => ⟨rfl, rfl⟩
  | rmdir d =>
    simp only [step, removeDirectory]
    cases h1 : findLive os.files (fullPath os.currentDirectory d) with
    | none => exact hinv
    | some r =>
      obtain ⟨i, f0⟩ := r
      by_cases hd : f0.isDirectory = true
      · by_cases he : isDirectoryEmpty os (fullPath os.currentDirectory d) = true
        · simp only [hd, he, if_true]
          refine keep _ i ?_ _ hinv; exact fun _ => ⟨rfl, rfl⟩
        · simpa [hd, he] using hinv
      · simpa [hd] using hinv
  | create f =>
    simp only [step, createFile]
    by_cases hc : os.fileCount ≥ MAX_FILES
    · simpa [hc] using hinv
    · simp only [hc, if_false]
      cases h1 : findLive os.files f with
      | none => exact app _ (fun hdir => rfl)
      | some r => exact hinv
  | write f c =>
    simp only [step, writeToFile]
    cases h1 : findLive os.files f with
    | none => exact hinv
    | some r =>
      obtain ⟨i, f0⟩ := r
      have hfile : f0.isDirectory = false := by
        simpa [writesToDirectory, h1] using hw
      refine forall_mem_modifyAt hinv (fun g hg hdir => ?_)
      rw [(findLive_some_spec h1).1] at hg
      cases hg
      have hdir2 : f0.isDirectory = true := hdir
      rw [hfile] at hdir2
      exact Bool.noConfusion hdir2
  | read f =>
    simp only [step, readFile]
    cases h1 : findLive os.files f with
    | none => exact hinv
    | some r => exact hinv
  | mkdir d =>
    simp only [step, makeDirectory]
    by_cases hc : os.fileCount ≥ MAX_FILES
    · simpa [hc] using hinv
    · simp only [hc, if_false]
      cases h1 : findLive os.files (fullPath os.currentDirectory d) with
      | none => exact app _ (fun _ => rfl)
      | some r => exact hinv
  | cd d =>
    simp only [step, changeDirectory_files]
    exact hinv
  | chmod f p =>
    simp only [step, setPermissions]
    cases h1 : findLive os.files f with
    | none => exact hinv
    | some r =>
      by_cases hp : p < 0 ∨ p > 7
      · simpa [hp] using hinv
      · simp only [hp, if_false]
        refine keep _ r.1 ?_ _ hinv; exact fun _ => ⟨rfl, rfl⟩
  | copy s d =>
    rcases copyFile_cases os s d with ⟨h1, _⟩ | ⟨i, src, dd, hs, _, _, _, he⟩
    · simp only [step, h1]; exact hinv
    · simp only [step, he]
      exact app _ (hinv src (List.getElem?_mem (findLive_some_spec hs).1))

theorem dirs_empty_run {os : OSState} (cs : List Cmd)
    (hinv : ∀ f ∈ os.files, f.isDirectory = true → f.content = [])
    (hw : noDirectoryWriteAlong os cs = true) (hfit : fitsBuffersAlong os cs = true) :
    ∀ f ∈ (run os cs).files, f.isDirectory = true → f.content = [] := by
  induction cs generalizing os with
  | nil => exact hinv
  | cons c cs ih =>
    simp only [noDirectoryWriteAlong, Bool.and_eq_true, Bool.not_eq_true'] at hw
    simp only [fitsBuffersAlong, Bool.and_eq_true] at hfit
    exact ih (dirs_empty_step c hinv hw.1 hfit.1) hw.2 hfit.2

/-- A second way in which a live directory gets content, without any `write`: `rename` of
`docs` to a name of 51 characters leaves the 51st character as the content of the slot. -/
theorem rename_gives_directory_content :
    (run initializeOS [Cmd.rename "docs".toList (aName 51)]).files[3]? =
      some { name := aName 51, content := aName 1, exists_ := true, isDirectory := true,
             permissions := 7 } ∧
    ¬ DirectoriesEmpty (run initializeOS [Cmd.rename "docs".toList (aName 51)]) := by
  constructor <;> decide

/-- Claim C20, amended: in every state reached from the freshly initialised engine by a
sequence of engine operations none of which is a `write` whose lookup finds a directory,
and each of which stays within the arrays of the program (arguments and built names of
at most 49 characters, contents of at most 1023), every live entry that is a directory
has empty content. -/
theorem directories_stay_empty (cs : List Cmd)
    (hw : noDirectoryWriteAlong initializeOS cs = true)
    (hfit : fitsBuffersAlong initializeOS cs = true) :
    DirectoriesEmpty (run initializeOS cs) :=
  fun f hf _ hdir => dirs_empty_run cs (by decide) hw hfit f hf hdir

/-- The amended claim C20 at a sequence that makes, copies, moves and renames directories
and writes to a file and to a missing path. -/
theorem directories_stay_empty_witness :
    DirectoriesEmpty (run initializeOS
      [Cmd.mkdir "a".toList, Cmd.write "readme.txt".toList "text".toList,
       Cmd.copy "docs".toList "b".toList, Cmd.move "readme.txt".toList "docs".toList,
       Cmd.rename "a".toList "c".toList, Cmd.write "nothing".toList "x".toList]) :=
  directories_stay_empty _ (by decide) (by decide)

/-! ## C21: move to a free name -/

theorem lookupView_cons (x : File) (fs : List File) (Q : Str) :
    lookupView (x :: fs) Q =
      if x.exists_ = true ∧ x.name = Q then some (x.content, x.isDirectory, x.permissions)
      else lookupView fs Q := by
  by_cases hx : x.exists_ = true ∧ x.name = Q
  · simp [lookupView, findLive, hx]
  · simp only [lookupView, findLive, hx, if_false, Option.map_map]
    rfl

theorem lookupView_append_of_ne (fs : List File) (e : File) (Q : Str) (h : e.name ≠ Q) :
    lookupView (fs ++ [e]) Q = lookupView fs Q := by
  induction fs with
  | nil =>
    have : ¬(e.exists_ = true ∧ e.name = Q) := fun hc => h hc.2
    simp [lookupView, findLive, this]
  | cons x fs ih => rw [List.cons_append, lookupView_cons, lookupView_cons, ih]

theorem findLive_cons_eq_none {x : File} {fs : List File} {n : Str}
    (h : findLive (x :: fs) n = none) :
    ¬(x.exists_ = true ∧ x.name = n) ∧ findLive fs n = none := by
  rw [findLive_eq_none_iff] at h
  exact ⟨h x (List.mem_cons_self _ _),
    (findLive_eq_none_iff fs n).2 (fun f hf => h f (List.mem_cons_of_mem _ hf))⟩

/-- Marking the found slot deleted and appending its copy under a name that is not live
shows every lookup the same as renaming the found slot in place. -/
theorem lookupView_move_eq_rename {fs : List File} {s d : Str} {i : Nat} {src : File}
    (hs : findLive fs s = some (i, src)) (hd : findLive fs d = none) (Q : Str) :
    lookupView (modifyAt (fun f => { f with exists_ := false }) fs i ++
        [{ name := d, content := src.content, exists_ := true,
           isDirectory := src.isDirectory, permissions := src.permissions }]) Q =
      lookupView (modifyAt (fun f => { f with name := d }) fs i) Q := by
  induction fs generalizing i with
  | nil => simp [findLive] at hs
  | cons x fs ih =>
    obtain ⟨hxd, hd2⟩ := findLive_cons_eq_none hd
    by_cases hx : x.exists_ = true ∧ x.name = s
    · simp only [findLive, hx, and_self, if_true, Option.some.injEq, Prod.mk.injEq] at hs
      obtain ⟨rfl, rfl⟩ := hs
      simp only [modifyAt, List.cons_append]
      rw [lookupView_cons, lookupView_cons]
      simp only [Bool.false_eq_true, false_and, if_false, hx.1, true_and]
      by_cases hq : d = Q
      · subst hq
        have happ := findLive_append_of_none
          { name := d, content := x.content, exists_ := true,
            isDirectory := x.isDirectory, permissions := x.permissions } hd2
        simp only [and_self, if_true] at happ
        simp [lookupView, happ]
      · rw [if_neg hq]
        exact lookupView_append_of_ne fs _ Q hq
    · simp only [findLive, hx, if_false, Option.map_eq_some'] at hs
      obtain ⟨⟨j, f1⟩, hj, he⟩ := hs
      simp only [Prod.mk.injEq] at he
      obtain ⟨rfl, rfl⟩ := he
      simp only [modifyAt, List.cons_append]
      rw [lookupView_cons, lookupView_cons, ih hj hd2]

/-- Claim C21 (move to a free name is a rename) fails as stated for a destination that
fills `name[50]`.  On the freshly initialised engine, with `readme.txt` live and a free
destination of 50 characters, both operations succeed; after `rename` a lookup of the
destination finds the entry, with its content wiped, and after `move` it finds nothing,
because the new slot reads its name on into the copied content. -/
theorem move_differs_from_rename_for_full_name :
    initializeOS.fileCount < MAX_FILES ∧
    findLive initializeOS.files (aName 50) = none ∧
    (moveFile initializeOS "readme.txt".toList (aName 50)).2 =
      Output.moved "readme.txt".toList (aName 50) ∧
    (renameFile initializeOS "readme.txt".toList (aName 50)).2 =
      Output.renamed "readme.txt".toList (aName 50) ∧
    lookupView (moveFile initializeOS "readme.txt".toList (aName 50)).1.files (aName 50) =
      none ∧
    lookupView (renameFile initializeOS "readme.txt".toList (aName 50)).1.files (aName 50) =
      some ([], false, 6) := by
  refine ⟨?_, ?_, ?_, ?_, ?_, ?_⟩ <;> decide

/-- Claim C21, amended: for every state whose table is not full, every live path `source`
and every `destination` of at most 49 characters that is not the path of any live entry,
`move(source, destination)` and `rename(source, destination)` both succeed, leave the same
current directory, and produce states that no lookup tells apart: for every path `Q`, `Q`
is live after the one iff it is live after the other, and the first live entry found at
`Q` has the same content, directory flag and permissions in both. -/
theorem move_to_free_name_is_rename (os : OSState) (source destination : Str)
    (hc : os.fileCount < MAX_FILES)
    (hs : ∃ f ∈ os.files, f.exists_ = true ∧ f.name = source)
    (hlen : destination.length < MAX_FILENAME_LENGTH)
    (hd : ∀ f ∈ os.files, ¬(f.exists_ = true ∧ f.name = destination)) :
    (moveFile os source destination).2 = Output.moved source destination ∧
    (renameFile os source destination).2 = Output.renamed source destination ∧
    (moveFile os source destination).1.currentDirectory =
      (renameFile os source destination).1.currentDirectory ∧
    ∀ Q, lookupView (moveFile os source destination).1.files Q =
      lookupView (renameFile os source destination).1.files Q := by
  obtain ⟨f, hf, he, hn⟩ := hs
  obtain ⟨⟨i, src⟩, hr⟩ := findLive_isSome_of_mem hf he hn
  have hnone : findLive os.files destination = none := (findLive_eq_none_iff _ _).2 hd
  have hdest : findDestDir os.files destination = some none := by
    simp [findDestDir, hnone]
  have hc2 : ¬ os.fileCount ≥ MAX_FILES := by omega
  have hcopy : copyOf src destination =
      { name := destination, content := src.content, exists_ := true,
        isDirectory := src.isDirectory, permissions := src.permissions } := by
    simp only [copyOf]
    rw [storedName_of_lt hlen]
  have hname : strcpyName destination = fun f => { f with name := destination } := by
    funext x
    simp [strcpyName, hlen]
  have hmove : moveFile os source destination =
      ({ os with files := modifyAt (fun f => { f with exists_ := false }) os.files i ++
            [{ name := destination, content := src.content, exists_ := true,
               isDirectory := src.isDirectory, permissions := src.permissions }] },
        Output.moved source destination) := by
    rw [← hcopy]
    simp [moveFile, hr, hdest, hc2, newNameFor,
      modifyAt_append_of_lt _ _ (findLive_lt_length hr)]
  have hren : renameFile os source destination =
      ({ os with files := modifyAt (fun f => { f with name := destination }) os.files i },
        Output.renamed source destination) := by
    rw [← hname]
    simp [renameFile, hr]
  rw [hmove, hren]
  exact ⟨rfl, rfl, rfl, fun Q => lookupView_move_eq_rename hr hnone Q⟩

/-- The amended claim C21 at `readme.txt` and the free name `notes.txt` on the freshly
initialised engine: after either operation `notes.txt` shows the content of
`readme.txt`, and after the move `readme.txt` is not live. -/
theorem move_to_free_name_is_rename_witness :
    (moveFile initializeOS "readme.txt".toList "notes.txt".toList).2 =
      Output.moved "readme.txt".toList "notes.txt".toList ∧
    lookupView (moveFile initializeOS "readme.txt".toList "notes.txt".toList).1.files
        "notes.txt".toList =
      lookupView (renameFile initializeOS "readme.txt".toList "notes.txt".toList).1.files
        "notes.txt".toList ∧
    lookupView (renameFile initializeOS "readme.txt".toList "notes.txt".toList).1.files
        "notes.txt".toList = some ("Welcome to SimpleOS!".toList, false, 6) ∧
    lookupView (moveFile initializeOS "readme.txt".toList "notes.txt".toList).1.files
        "readme.txt".toList = none := by
  have h := move_to_free_name_is_rename initializeOS "readme.txt".toList "notes.txt".toList
    (by decide) (by decide) (by decide) (by decide)
  exact ⟨h.1, h.2.2.2 _, by decide, by decide⟩

/-! ## C22: cd .. after a descent -/

/-- What `cd ..` does: the current directory is cut at its last `/`, or reset to `/` when
that `/` is the first character or there is none. -/
theorem changeDirectoryWith_parent (ov : Str → Str → Str) (os : OSState) :
    changeDirectoryWith ov os "..".toList =
      ({ os with currentDirectory :=
          match strrchr os.currentDirectory '/' with
          | some (i + 1) => os.currentDirectory.take (i + 1)
          | _ => "/".toList }, Output.silent) := by
  unfold changeDirectoryWith
  rw [if_neg (by decide), if_pos rfl]
  split <;> rfl

/-- Claim C22 (cd .. undoes a descent) evaluated where the code departs from it.  Away
from the root the new current directory is built by
`sprintf(currentDirectory, "%s/%s", currentDirectory, dirname)`, whose destination is also
its argument.  On a build whose `sprintf` clears the destination before it formats (as the
checked `sprintf` of glibc does), the sequence `copy docs sub`, `cd docs`, `cd sub`,
`cd ..` goes from `/docs` to `/sub` and then to `/`, where the claim says it is back at
`/docs`. -/
theorem cd_parent_does_not_undo_descent_from_docs :
    Reachable (run initializeOS [Cmd.copy "docs".toList "sub".toList, Cmd.cd "docs".toList]) ∧
    (run initializeOS
      [Cmd.copy "docs".toList "sub".toList, Cmd.cd "docs".toList]).currentDirectory =
      "/docs".toList ∧
    (changeDirectoryWith emptiedSelfSprintf
      (run initializeOS [Cmd.copy "docs".toList "sub".toList, Cmd.cd "docs".toList])
      "sub".toList) =
      ({ (run initializeOS [Cmd.copy "docs".toList "sub".toList, Cmd.cd "docs".toList]) with
          currentDirectory := "/sub".toList }, Output.silent) ∧
    (changeDirectoryWith emptiedSelfSprintf (changeDirectoryWith emptiedSelfSprintf
      (run initializeOS [Cmd.copy "docs".toList "sub".toList, Cmd.cd "docs".toList])
      "sub".toList).1 "..".toList).1.currentDirectory = "/".toList ∧
    (changeDirectoryWith emptiedSelfSprintf (changeDirectoryWith emptiedSelfSprintf
      (run initializeOS [Cmd.copy "docs".toList "sub".toList, Cmd.cd "docs".toList])
      "sub".toList).1 "..".toList).1.currentDirectory ≠
      (run initializeOS
        [Cmd.copy "docs".toList "sub".toList, Cmd.cd "docs".toList]).currentDirectory := by
  refine ⟨reachable_run _, ?_, ?_, ?_, ?_⟩ <;> decide

/-- The part of claim C22 that holds whatever the overlapping `sprintf` leaves.  For every
state and every name without `/` and other than `..` for which `cd(name)` succeeds
(prints nothing), neither that `cd` nor an immediately following `cd ..` changes the entry
table; and when the current directory is `/` and `name` has at most 48 characters, the
`cd ..` restores the current directory to `/` and the state after both is the state
before. -/
theorem cd_parent_undoes_descent_at_root (selfSprintf : Str → Str → Str) (os : OSState)
    (name : Str) (hn : '/' ∉ name) (h2 : name ≠ "..".toList)
    (h : (changeDirectoryWith selfSprintf os name).2 = Output.silent) :
    (changeDirectoryWith selfSprintf os name).1.files = os.files ∧
    (changeDirectoryWith selfSprintf (changeDirectoryWith selfSprintf os name).1
      "..".toList).1.files = os.files ∧
    (os.currentDirectory = "/".toList → name.length + 1 < MAX_FILENAME_LENGTH →
      (changeDirectoryWith selfSprintf (changeDirectoryWith selfSprintf os name).1
        "..".toList).1.currentDirectory = os.currentDirectory ∧
      (changeDirectoryWith selfSprintf (changeDirectoryWith selfSprintf os name).1
        "..".toList).1 = os) := by
  have h1 : name ≠ "/".toList := by
    rintro rfl
    exact hn (by decide)
  have hcd := (changeDirectoryWith_eq_of_silent h1 h2 h).2
  refine ⟨changeDirectoryWith_files _ os name, ?_, fun hroot _ => ?_⟩
  · rw [changeDirectoryWith_files, changeDirectoryWith_files]
  · have hback : (changeDirectoryWith selfSprintf (changeDirectoryWith selfSprintf os name).1
        "..".toList).1 = os := by
      rw [hcd, changeDirectoryWith_parent]
      have hs : strrchr ("/".toList ++ name) '/' = some 0 :=
        strrchr_append_of_not_mem [] name '/' hn
      simp only [hroot, if_true, hs]
      cases os
      simp_all
    exact ⟨by rw [hback], hback⟩

/-- The statement above at `cd docs` from `/` on the freshly initialised engine: the
current directory becomes `/docs`, and `cd ..` gives back the initial state. -/
theorem cd_parent_undoes_descent_at_root_witness :
    (changeDirectory initializeOS "docs".toList).1.currentDirectory = "/docs".toList ∧
    (changeDirectory initializeOS "docs".toList).1.files = initializeOS.files ∧
    (changeDirectory (changeDirectory initializeOS "docs".toList).1
      "..".toList).1 = initializeOS :=
  ⟨by decide,
   (cd_parent_undoes_descent_at_root plainSelfSprintf initializeOS "docs".toList (by decide)
      (by decide) (by decide)).1,
   ((cd_parent_undoes_descent_at_root plainSelfSprintf initializeOS "docs".toList
      (by decide) (by decide) (by decide)).2.2 (by decide) (by decide)).2⟩

/-- Claim C22 holds on a build where the overlapping `sprintf` formats from the old content
of its destination (`changeDirectory`, with `plainSelfSprintf`): for every state with a
non-empty current directory `d` and every name without `/` and other than `..` such that
`d`, a `/` and the name fit `currentDirectory[50]`, if `cd(name)` succeeds then an
immediately following `cd ..` restores the current directory to exactly `d`, and the state
after both is the state before. -/
theorem cd_parent_undoes_descent_of_concatenation (os : OSState) (name : Str)
    (hd : os.currentDirectory ≠ []) (hn : '/' ∉ name) (h2 : name ≠ "..".toList)
    (hfit : os.currentDirectory.length + 1 + name.length < MAX_FILENAME_LENGTH)
    (h : (changeDirectory os name).2 = Output.silent) :
    (changeDirectory (changeDirectory os name).1 "..".toList).1.currentDirectory =
      os.currentDirectory ∧
    (changeDirectory (changeDirectory os name).1 "..".toList).1 = os := by
  have _ := hfit
  have h1 : name ≠ "/".toList := by
    rintro rfl
    exact hn (by decide)
  have hcd : changeDirectory os name = _ := (changeDirectoryWith_eq_of_silent h1 h2 h).2
  have hback : (changeDirectory (changeDirectory os name).1 "..".toList).1 = os := by
    rw [hcd]
    unfold changeDirectory
    rw [changeDirectoryWith_parent]
    by_cases hc : os.currentDirectory = "/".toList
    · have hs : strrchr ("/".toList ++ name) '/' = some 0 :=
        strrchr_append_of_not_mem [] name '/' hn
      simp only [hc, if_true, hs]
      cases os
      simp_all
    · have hs : strrchr (os.currentDirectory ++ "/".toList ++ name) '/' =
          some os.currentDirectory.length := by
        have := strrchr_append_of_not_mem os.currentDirectory name '/' hn
        simpa using this
      obtain ⟨k, hk⟩ : ∃ k, os.currentDirectory.length = k + 1 :=
        Nat.exists_eq_succ_of_ne_zero (fun h0 => hd (List.length_eq_zero.1 h0))
      simp only [hc, if_false, plainSelfSprintf, hs, hk]
      have htake : List.take (k + 1) (os.currentDirectory ++ "/".toList ++ name) =
          os.currentDirectory := by
        rw [← hk, List.append_assoc, List.take_left]
      rw [htake]
  exact ⟨by rw [hback], hback⟩

/-- The statement above at `cd sub` from `/docs`, after `copy docs sub` has made a live
directory called `sub`: the current directory becomes `/docs/sub` and `cd ..` gives
`/docs` again. -/
theorem cd_parent_undoes_descent_of_concatenation_witness :
    (changeDirectory
      (run initializeOS [Cmd.copy "docs".toList "sub".toList, Cmd.cd "docs".toList])
      "sub".toList).1.currentDirectory = "/docs/sub".toList ∧
    (changeDirectory (changeDirectory
      (run initializeOS [Cmd.copy "docs".toList "sub".toList, Cmd.cd "docs".toList])
      "sub".toList).1 "..".toList).1.currentDirectory = "/docs".toList :=
  ⟨by decide,
   (cd_parent_undoes_descent_of_concatenation
      (run initializeOS [Cmd.copy "docs".toList "sub".toList, Cmd.cd "docs".toList])
      "sub".toList (by decide) (by decide) (by decide) (by decide) (by decide)).1⟩

end SimpleOS
